import Mathlib

/-!
Verification of the FBX document-model reconciliation engine
(src/fbx_document.cpp): buffer codec, accessor layer, mesh assembler,
skin/skeleton resolver and animation track converter.

Modelling conventions.

Machine doubles and floats are modelled as exact rationals.  Raw byte
buffers are modelled as lists of rational cells: an integer component
occupies its genuine little-endian two's-complement byte cells, while an
IEEE-754 binary32 component (whose bit packing is outside this shallow
embedding) is modelled as a 4-cell record carrying the exact value in
its first cell and zeros after it.  All offsets, strides, sizes and
range checks are byte-accurate; float-lane equality results are
therefore meaningful on the binary32-representable subdomain that the
round-trip theorems assume explicitly.

The container classes FBXState, FBXNode, FBXSkin, FBXBufferView and
FBXAccessor come from headers that are not part of the sources under
review; their fields are modelled from the specification (section 3)
and from the way src/fbx_document.cpp reads and writes them, restricted
to the fields the embedded functions use.  Godot's Vector::find, which
returns the first index or -1, is embedded as vfind.  C++ signed "-1
absent" indices are embedded as Option.
-/

/-- Element of a list at an index, with a default for out-of-range access. -/
def atD {α : Type} (l : List α) (i : ℕ) (d : α) : α :=
  match l, i with
  | [], _ => d
  | a :: _, 0 => a
  | _ :: t, i + 1 => atD t i d

/-- Godot Vector::find: index of the first occurrence, or -1 when absent. -/
def vfind (l : List ℕ) (x : ℕ) : ℤ :=
  match l with
  | [] => -1
  | a :: t => if a = x then 0 else (if vfind t x < 0 then -1 else vfind t x + 1)

/-- Concatenation of the images of a list, in order. -/
def lcat {α β : Type} (f : α → List β) : List α → List β
  | [] => []
  | a :: t => f a ++ lcat f t

/-- Write at an index; fails when the index is out of range (a C++
Vector write past the end is a crash, not a silent extension). -/
def setAt {α : Type} : List α → ℕ → α → Option (List α)
  | [], _, _ => none
  | _ :: t, 0, b => some (b :: t)
  | a :: t, i + 1, b => (setAt t i b).map (fun l => a :: l)

/-- Insertion into a weakly ascending list of naturals. -/
def insSorted (x : ℕ) : List ℕ → List ℕ
  | [] => [x]
  | a :: t => if x ≤ a then x :: a :: t else a :: insSorted x t

/-- Ascending insertion sort; embeds Godot Vector::sort on index vectors. -/
def isort : List ℕ → List ℕ
  | [] => []
  | a :: t => insSorted a (isort t)

/-- C++ double-to-integer conversion: truncation toward zero. -/
def truncQ (x : ℚ) : ℤ :=
  if 0 ≤ x then ⌊x⌋ else ⌈x⌉

theorem atD_cons_succ {α : Type} (a : α) (t : List α) (i : ℕ) (d : α) :
    atD (a :: t) (i + 1) d = atD t i d := rfl

theorem atD_append_right {α : Type} (l₁ l₂ : List α) (k : ℕ) (d : α) :
    atD (l₁ ++ l₂) (l₁.length + k) d = atD l₂ k d := by
  induction l₁ with
  | nil => simp [atD]
  | cons a t ih => simpa [List.length_cons, Nat.succ_add, atD] using ih

theorem atD_append_left {α : Type} (l₁ l₂ : List α) (k : ℕ) (h : k < l₁.length) (d : α) :
    atD (l₁ ++ l₂) k d = atD l₁ k d := by
  induction l₁ generalizing k with
  | nil => simp at h
  | cons a t ih =>
    cases k with
    | zero => rfl
    | succ k =>
      simp only [List.cons_append, atD]
      exact ih k (by simpa using h)

theorem vfind_neg_iff (l : List ℕ) (x : ℕ) : vfind l x < 0 ↔ x ∉ l := by
  induction l with
  | nil => simp [vfind]
  | cons a t ih =>
    by_cases hax : a = x
    · simp [vfind, hax]
    · by_cases hm : vfind t x < 0
      · simp [vfind, hax, hm, ih.mp hm, Ne.symm hax]
      · have hx : x ∈ t := by
          by_contra hc
          exact hm (ih.mpr hc)
        simp only [vfind, if_neg hax, if_neg hm]
        constructor
        · intro hlt
          exfalso
          omega
        · intro hc
          exact absurd (List.mem_cons_of_mem a hx) hc

theorem vfind_nonneg_iff (l : List ℕ) (x : ℕ) : 0 ≤ vfind l x ↔ x ∈ l := by
  have := vfind_neg_iff l x
  constructor
  · intro h
    by_contra hc
    have := this.mpr hc
    omega
  · intro h
    by_contra hc
    exact (this.mp (by omega)) h

theorem vfind_pos_mem {l : List ℕ} {x : ℕ} (h : 0 < vfind l x) : x ∈ l := by
  exact (vfind_nonneg_iff l x).mp (le_of_lt h)

theorem mem_insSorted (x y : ℕ) (l : List ℕ) :
    y ∈ insSorted x l ↔ y = x ∨ y ∈ l := by
  induction l with
  | nil => simp [insSorted]
  | cons a t ih =>
    by_cases hxa : x ≤ a
    · simp [insSorted, hxa]
    · simp only [insSorted, if_neg hxa, List.mem_cons, ih]
      tauto

theorem mem_isort (x : ℕ) (l : List ℕ) : x ∈ isort l ↔ x ∈ l := by
  induction l with
  | nil => simp [isort]
  | cons a t ih => simp [isort, mem_insSorted, ih]

theorem insSorted_perm (x : ℕ) (l : List ℕ) : List.Perm (insSorted x l) (x :: l) := by
  induction l with
  | nil => simp [insSorted]
  | cons a t ih =>
    by_cases hxa : x ≤ a
    · simp [insSorted, hxa]
    · simp only [insSorted, if_neg hxa]
      exact (List.Perm.cons a ih).trans (List.Perm.swap x a t)

theorem isort_perm (l : List ℕ) : List.Perm (isort l) l := by
  induction l with
  | nil => simp [isort]
  | cons a t ih => exact (insSorted_perm a (isort t)).trans (List.Perm.cons a ih)

theorem insSorted_sorted (x : ℕ) (l : List ℕ) (h : List.Sorted (· ≤ ·) l) :
    List.Sorted (· ≤ ·) (insSorted x l) := by
  induction l with
  | nil => simp [insSorted]
  | cons a t ih =>
    by_cases hxa : x ≤ a
    · simp only [insSorted, if_pos hxa]
      refine List.sorted_cons.mpr ⟨?_, h⟩
      intro b hb
      rcases List.mem_cons.mp hb with rfl | hb
      · exact hxa
      · exact le_trans hxa ((List.sorted_cons.mp h).1 b hb)
    · rcases List.sorted_cons.mp h with ⟨ha, ht⟩
      simp only [insSorted, if_neg hxa]
      refine List.sorted_cons.mpr ⟨?_, ih ht⟩
      intro b hb
      rcases (mem_insSorted x b t).mp hb with rfl | hb
      · omega
      · exact ha b hb

theorem isort_sorted (l : List ℕ) : List.Sorted (· ≤ ·) (isort l) := by
  induction l with
  | nil => simp [isort]
  | cons a t ih => exact insSorted_sorted a (isort t) ih

theorem isort_eq_of_perm {l₁ l₂ : List ℕ} (h : List.Perm l₁ l₂) :
    isort l₁ = isort l₂ := by
  refine List.eq_of_perm_of_sorted ?_ (isort_sorted l₁) (isort_sorted l₂)
  exact (isort_perm l₁).trans (h.trans (isort_perm l₂).symm)

/-- Mapping in the Option monad over a list; none as soon as one fails. -/
def optMapList {α β : Type} (f : α → Option β) : List α → Option (List β)
  | [] => some []
  | a :: t =>
    match f a, optMapList f t with
    | some b, some l => some (b :: l)
    | _, _ => none

theorem optMapList_id {α : Type} (f : α → Option α) (l : List α)
    (h : ∀ a ∈ l, f a = some a) : optMapList f l = some l := by
  induction l with
  | nil => rfl
  | cons a t ih =>
    have ha := h a (List.mem_cons_self a t)
    have ht := ih (fun b hb => h b (List.mem_cons_of_mem a hb))
    simp [optMapList, ha, ht]

/-! ## Data model

Modelled from the spec: the document container classes (FBXState and the
per-entity records) live in headers outside the reviewed sources; fields
follow spec section 3 and the accesses made by src/fbx_document.cpp. -/

/-- glTF component types 5120..5126 of the source enum. -/
inductive CompType : Type
  | BYTE
  | UNSIGNED_BYTE
  | SHORT
  | UNSIGNED_SHORT
  | INT
  | FLOAT
  deriving DecidableEq

/-- Accessor element shapes, source enum FBXType. -/
inductive AccType : Type
  | SCALAR
  | VEC2
  | VEC3
  | VEC4
  | MAT2
  | MAT3
  | MAT4
  deriving DecidableEq

/-- Source table component_count_for_type. -/
def component_count_for_type (t : AccType) : ℕ :=
  match t with
  | AccType.SCALAR => 1
  | AccType.VEC2 => 2
  | AccType.VEC3 => 3
  | AccType.VEC4 => 4
  | AccType.MAT2 => 4
  | AccType.MAT3 => 9
  | AccType.MAT4 => 16

/-- FBXDocument::_get_component_type_size. -/
def _get_component_type_size (ct : CompType) : ℕ :=
  match ct with
  | CompType.BYTE => 1
  | CompType.UNSIGNED_BYTE => 1
  | CompType.SHORT => 2
  | CompType.UNSIGNED_SHORT => 2
  | CompType.INT => 4
  | CompType.FLOAT => 4

/-- The fixed alignment-skip table of _encode_buffer_view and
_decode_accessor: (skip_every, skip_bytes). -/
def alignSkip (ct : CompType) (t : AccType) : ℕ × ℕ :=
  match ct with
  | CompType.BYTE | CompType.UNSIGNED_BYTE =>
    match t with
    | AccType.MAT2 => (2, 2)
    | AccType.MAT3 => (3, 1)
    | _ => (0, 0)
  | CompType.SHORT | CompType.UNSIGNED_SHORT =>
    match t with
    | AccType.MAT3 => (6, 4)
    | _ => (0, 0)
  | _ => (0, 0)

/-- _decode_accessor's element size, with the padded overrides for the
byte/short matrix cases. -/
def accElementSize (ct : CompType) (t : AccType) : ℕ :=
  match ct with
  | CompType.BYTE | CompType.UNSIGNED_BYTE =>
    match t with
    | AccType.MAT2 => 8
    | AccType.MAT3 => 12
    | _ => component_count_for_type t * _get_component_type_size ct
  | CompType.SHORT | CompType.UNSIGNED_SHORT =>
    match t with
    | AccType.MAT3 => 16
    | _ => component_count_for_type t * _get_component_type_size ct
  | _ => component_count_for_type t * _get_component_type_size ct

/-- Modelled from the spec: FBXBufferView (buffer index, byte offset,
byte length, optional byte stride; a C++ stride of -1 is none). -/
structure FBXBufferView : Type where
  buffer : ℕ
  byte_offset : ℕ
  byte_length : ℕ
  byte_stride : Option ℕ
  deriving DecidableEq

/-- Modelled from the spec: the accessor fields read by _decode_accessor.
A C++ buffer_view of -1 is none. -/
structure FBXAccessor : Type where
  buffer_view : Option ℕ
  byte_offset : ℕ
  component_type : CompType
  normalized : Bool
  count : ℕ
  type : AccType
  sparse_count : ℕ
  sparse_indices_buffer_view : ℕ
  sparse_indices_byte_offset : ℕ
  sparse_indices_component_type : CompType
  sparse_values_buffer_view : ℕ
  sparse_values_byte_offset : ℕ
  deriving DecidableEq

/-- Modelled from the spec: the node fields used by the skin resolver.
A C++ parent of -1 is none. -/
structure FBXNode : Type where
  parent : Option ℕ
  children : List ℕ
  joint : Bool
  height : ℕ
  deriving DecidableEq

instance : Inhabited FBXNode := ⟨⟨none, [], false, 0⟩⟩

/-- Modelled from the spec: the skin fields used by expansion; joints
and non_joints are the working sets, roots the resolved root set. -/
structure FBXSkin : Type where
  joints : List ℕ
  non_joints : List ℕ
  roots : List ℕ
  deriving DecidableEq

/-- Modelled from the spec: the slice of FBXState the embedded functions
touch.  Buffers are byte-cell lists (see the file comment). -/
structure FBXState : Type where
  nodes : List FBXNode
  buffers : List (List ℚ)
  buffer_views : List FBXBufferView
  accessors : List FBXAccessor
  deriving DecidableEq

/-! ## Byte-cell component codecs -/

/-- Little-endian unsigned read of a cell run, most significant last. -/
def readUInt (buf : List ℚ) (pos : ℕ) : ℕ → ℚ
  | 0 => 0
  | k + 1 => atD buf pos 0 + 256 * readUInt buf (pos + 1) k

/-- Two's-complement reinterpretation of an unsigned composite. -/
def toSignedQ (half modulus u : ℚ) : ℚ :=
  if u < half then u else u - modulus

/-- One decoded component, as the double the source produces: the switch
of _decode_buffer_view over the component type. -/
def decodeComp (ct : CompType) (normalized : Bool) (buf : List ℚ) (pos : ℕ) : ℚ :=
  match ct with
  | CompType.BYTE =>
    let b := toSignedQ 128 256 (readUInt buf pos 1)
    if normalized then b / 128 else b
  | CompType.UNSIGNED_BYTE =>
    let b := readUInt buf pos 1
    if normalized then b / 255 else b
  | CompType.SHORT =>
    let s := toSignedQ 32768 65536 (readUInt buf pos 2)
    if normalized then s / 32768 else s
  | CompType.UNSIGNED_SHORT =>
    let s := readUInt buf pos 2
    if normalized then s / 65535 else s
  | CompType.INT => toSignedQ (2 ^ 31) (2 ^ 32) (readUInt buf pos 4)
  | CompType.FLOAT => atD buf pos 0

/-- The scaling applied by _encode_buffer_view before the narrowing
conversion (d * 128.0 and so on; int and float lanes store d itself). -/
def scaleEnc (ct : CompType) (normalized : Bool) (d : ℚ) : ℚ :=
  match ct with
  | CompType.BYTE => if normalized then d * 128 else d
  | CompType.UNSIGNED_BYTE => if normalized then d * 255 else d
  | CompType.SHORT => if normalized then d * 32768 else d
  | CompType.UNSIGNED_SHORT => if normalized then d * 65535 else d
  | CompType.INT => d
  | CompType.FLOAT => d

/-- Little-endian byte cells of an unsigned value. -/
def intLE : ℕ → ℤ → List ℚ
  | 0, _ => []
  | k + 1, v => ((v % 256 : ℤ) : ℚ) :: intLE k (v / 256)

/-- Byte cells of one stored component.  Integer lanes hold the
two's-complement little-endian bytes of the truncated scaled value
(conversion of an out-of-range double is undefined in C++ and modelled
as wrapping); the float lane holds the modelled 4-cell record. -/
def storeComp (ct : CompType) (normalized : Bool) (d : ℚ) : List ℚ :=
  match ct with
  | CompType.FLOAT => [d, 0, 0, 0]
  | _ =>
    let cs := _get_component_type_size ct
    intLE cs ((truncQ (scaleEnc ct normalized d)) % (2 ^ (8 * cs) : ℤ))

/-! ## Buffer codec: _decode_buffer_view / _encode_buffer_view -/

/-- Inner component loop of _decode_buffer_view: j counts components
inside one element, src is the byte cursor; before component j (j > 0,
j multiple of skip_every) the cursor jumps skip_bytes. -/
def readElem (buf : List ℚ) (skip_every skip_bytes comp_size : ℕ)
    (ct : CompType) (normalized : Bool) : ℕ → ℕ → ℕ → List ℚ
  | _, 0, _ => []
  | j, rem + 1, src =>
    let src' := if skip_every ≠ 0 ∧ 0 < j ∧ j % skip_every = 0 then src + skip_bytes else src
    decodeComp ct normalized buf src' ::
      readElem buf skip_every skip_bytes comp_size ct normalized (j + 1) rem (src' + comp_size)

/-- The effective stride _decode_buffer_view uses: declared view
stride when present, else the element size, rounded up to a multiple
of 4 for vertex attributes. -/
def decodeStride (bv : FBXBufferView) (element_size : ℕ) (for_vertex : Bool) : ℕ :=
  let stride0 : ℕ := match bv.byte_stride with
    | none => element_size
    | some s => s
  if for_vertex ∧ stride0 % 4 ≠ 0 then stride0 + (4 - stride0 % 4) else stride0

/-- The required span of a decode: stride * (count - 1) + element
size (the source's buffer_end). -/
def decodeSpan (bv : FBXBufferView) (element_size count : ℕ) (for_vertex : Bool) : ℤ :=
  decodeStride bv element_size for_vertex * ((count : ℤ) - 1) + element_size

/-- FBXDocument::_decode_buffer_view.  The destination array is the
returned list; the source signals failure through ERR_FAIL and is
modelled as none, in which case nothing is written. -/
def _decode_buffer_view (st : FBXState) (p_buffer_view : ℕ)
    (p_skip_every p_skip_bytes p_element_size p_count p_component_count : ℕ)
    (p_component_type : CompType) (p_component_size : ℕ)
    (p_normalized : Bool) (p_byte_offset : ℕ) (p_for_vertex : Bool) : Option (List ℚ) :=
  match atD (st.buffer_views.map Option.some) p_buffer_view none with
  | none => none
  | some bv =>
    let stride : ℕ := decodeStride bv p_element_size p_for_vertex
    match atD (st.buffers.map Option.some) bv.buffer none with
    | none => none
    | some buffer =>
      let offset := bv.byte_offset + p_byte_offset
      let buffer_end : ℤ := decodeSpan bv p_element_size p_count p_for_vertex
      if buffer_end > (bv.byte_length : ℤ) then none
      else if (offset : ℤ) + buffer_end > (buffer.length : ℤ) then none
      else some (lcat
        (fun i => readElem buffer p_skip_every p_skip_bytes p_component_size
          p_component_type p_normalized 0 p_component_count ((offset : ℕ) + i * (stride : ℕ)))
        (List.range p_count))

/-- FBXDocument::_decode_accessor.  The source returns an empty vector
on failure; modelled as none to keep failure distinct from an empty
decode. -/
def _decode_accessor (st : FBXState) (p_accessor : ℕ) (p_for_vertex : Bool) : Option (List ℚ) :=
  match atD (st.accessors.map Option.some) p_accessor none with
  | none => none
  | some a =>
    let component_count := component_count_for_type a.type
    let component_size := _get_component_type_size a.component_type
    let sk := alignSkip a.component_type a.type
    let element_size := accElementSize a.component_type a.type
    let base : Option (List ℚ) :=
      match a.buffer_view with
      | some bvi =>
        if bvi < st.buffer_views.length then
          _decode_buffer_view st bvi sk.1 sk.2 element_size a.count component_count
            a.component_type component_size a.normalized a.byte_offset p_for_vertex
        else none
      | none => some (List.replicate (a.count * component_count) 0)
    match base with
    | none => none
    | some dst =>
      if a.sparse_count > 0 then
        let ics := _get_component_type_size a.sparse_indices_component_type
        match _decode_buffer_view st a.sparse_indices_buffer_view 0 0 ics a.sparse_count 1
            a.sparse_indices_component_type ics false a.sparse_indices_byte_offset false with
        | none => none
        | some indices =>
          match _decode_buffer_view st a.sparse_values_buffer_view sk.1 sk.2 element_size
              a.sparse_count component_count a.component_type component_size a.normalized
              a.sparse_values_byte_offset p_for_vertex with
          | none => none
          | some data =>
            some ((List.range indices.length).foldl
              (fun acc i =>
                (List.range component_count).foldl
                  (fun acc2 (j : ℕ) =>
                    let w : ℤ := truncQ (atD indices i 0) * component_count + (j : ℤ)
                    if 0 ≤ w ∧ w.toNat < acc2.length then
                      acc2.set w.toNat (atD data ((i * component_count + j : ℕ)) 0)
                    else acc2)
                  acc)
              dst)
      else some dst

/-- Inner write loop of _encode_buffer_view, shared by its six per-type
copies (they differ only in scale factor and storage width, captured by
conv): writes each converted component at the running dst index with
the same skip rule, failing on an out-of-range write (the source's
out-of-bounds Vector write is a crash). -/
def encElem {α : Type} (conv : ℚ → α) (skip_every skip_bytes : ℕ) :
    ℕ → ℕ → List ℚ → ℕ → List α → Option (List α × ℕ × List ℚ)
  | _, 0, vals, dst_i, buf => some (buf, dst_i, vals)
  | j, rem + 1, vals, dst_i, buf =>
    match vals with
    | [] => none
    | v :: vs =>
      let dst := if skip_every ≠ 0 ∧ 0 < j ∧ j % skip_every = 0 then dst_i + skip_bytes else dst_i
      match setAt buf dst (conv v) with
      | none => none
      | some buf' => encElem conv skip_every skip_bytes (j + 1) rem vs (dst + 1) buf'

/-- Outer element loop of _encode_buffer_view's write pass. -/
def encAll {α : Type} (conv : ℚ → α) (skip_every skip_bytes comp_count : ℕ) :
    ℕ → List ℚ → ℕ → List α → Option (List α × ℕ × List ℚ)
  | 0, vals, dst_i, buf => some (buf, dst_i, vals)
  | k + 1, vals, dst_i, buf =>
    match encElem conv skip_every skip_bytes 0 comp_count vals dst_i buf with
    | none => none
    | some (buf', dst', vs) => encAll conv skip_every skip_bytes comp_count k vs dst' buf'

/-- Converted slot value for the integer lanes: the truncated scaled
double, wrapped to the storage width (out-of-range narrowing is
undefined behaviour in the source and modelled as wrapping). -/
def convSlot (ct : CompType) (normalized : Bool) (d : ℚ) : ℤ :=
  truncQ (scaleEnc ct normalized d) % (2 ^ (8 * _get_component_type_size ct) : ℤ)

/-- Byte cells of one stored integer slot. -/
def slotCells (ct : CompType) (v : ℤ) : List ℚ :=
  intLE (_get_component_type_size ct) v

/-- FBXDocument::_encode_buffer_view.  Appends the packed data to the
main buffer (buffers[0]), pushes the new buffer view and returns its
index.  The new view's buffer field is set to the pre-push view count
(r_accessor = bv->buffer = p_state->buffer_views.size() in the source),
which names an existing buffer only when the view list was empty.
ERR_FAIL paths are none. -/
def _encode_buffer_view (st : FBXState) (p_src : List ℚ) (p_count : ℕ) (p_type : AccType)
    (p_component_type : CompType) (p_normalized : Bool) (p_byte_offset : ℕ)
    (p_for_vertex : Bool) : Option (FBXState × ℕ) :=
  let component_count := component_count_for_type p_type
  let component_size := _get_component_type_size p_component_type
  let sk := alignSkip p_component_type p_type
  match atD (st.buffers.map Option.some) 0 none with
  | none => none
  | some gltf_buffer =>
    let stride0 := component_size
    let stride := if p_for_vertex ∧ stride0 % 4 ≠ 0 then stride0 + (4 - stride0 % 4) else stride0
    let buffer_end : ℤ := stride * ((p_count : ℤ) - 1) + component_size
    let bv_offset := gltf_buffer.length
    let cellsOpt : Option (List ℚ) :=
      if p_component_type = CompType.FLOAT then
        match encAll (fun d => d) sk.1 sk.2 component_count p_count p_src 0
            (List.replicate (p_count * component_count) 0) with
        | none => none
        | some (typed, _, _) => some (lcat (fun v => [v, 0, 0, 0]) typed)
      else
        match encAll (convSlot p_component_type p_normalized) sk.1 sk.2 component_count p_count
            p_src 0 (List.replicate (p_count * component_count) 0) with
        | none => none
        | some (typed, _, _) => some (lcat (slotCells p_component_type) typed)
    match cellsOpt with
    | none => none
    | some cells =>
      let byte_length := p_count * component_count * component_size
      if buffer_end > (byte_length : ℤ) then none
      else if (p_byte_offset : ℤ) + buffer_end > ((gltf_buffer.length + cells.length : ℕ) : ℤ) then none
      else
        let bv : FBXBufferView :=
          { buffer := st.buffer_views.length, byte_offset := bv_offset,
            byte_length := byte_length, byte_stride := none }
        match setAt st.buffers 0 (gltf_buffer ++ cells) with
        | none => none
        | some bufs =>
          some ({ st with buffers := bufs, buffer_views := st.buffer_views ++ [bv] },
            st.buffer_views.length)

/-! ## Mesh assembler: winding flip and weight renormalization -/

/-- The decode-side triangle winding flip of _parse_meshes: swap the 2nd
and 3rd index of each consecutive triple.  Modelled from the spec for
the encode side as well: the symmetric encode-side flip is this same
swap. -/
def flipWinding : List ℤ → List ℤ
  | a :: b :: c :: rest => a :: c :: b :: flipWinding rest
  | l => l

/-- Source constant JOINT_GROUP_SIZE. -/
def JOINT_GROUP_SIZE : ℕ := 4

/-- One pass of the weight renormalization loop of _parse_meshes over a
group of gsize weights starting at the cursor: divide by the group sum
when it is positive, leave the group alone otherwise. -/
def normWeightsAux (gsize : ℕ) : ℕ → List ℚ → List ℚ
  | 0, w => w
  | _ + 1, [] => []
  | fuel + 1, w =>
    let chunk := w.take gsize
    let total := chunk.sum
    (if total > 0 then chunk.map (fun x => x / total) else chunk) ++
      normWeightsAux gsize fuel (w.drop gsize)

/-- The per-vertex weight renormalization of _parse_meshes (gsize is 4
for a lone WEIGHTS_0 accessor and 8 for a merged WEIGHTS_0/WEIGHTS_1
pair). -/
def normalizeWeights (gsize : ℕ) (w : List ℚ) : List ℚ :=
  normWeightsAux gsize w.length w

/-! ## Animation track converter -/

/-- Track interpolation modes of FBXAnimation. -/
inductive Interp : Type
  | LINEAR
  | STEP
  | CATMULLROMSPLINE
  | CUBIC_SPLINE
  deriving DecidableEq

/-- Value triples per key implied by the sampler interpolation tag in
_parse_animations (output_count). -/
def animOutputCount (i : Interp) : ℕ :=
  match i with
  | Interp.CATMULLROMSPLINE => 3
  | Interp.CUBIC_SPLINE => 3
  | _ => 1

/-- The acceptance check _parse_animations applies to a morph-weight
channel: the decoded weight count must equal times * output_count *
morph-target count, otherwise the channel is skipped. -/
def weightChannelAccepted (i : Interp) (times_len wc weights_len : ℕ) : Bool :=
  weights_len == times_len * animOutputCount i * wc

/-- The correspondence guard at the top of _interpolate_track: the value
count divided (integer division) by 3 for cubic-spline tracks and by 1
otherwise must equal the time count, else the sampler falls back to the
first value. -/
def tracksCorresponding (i : Interp) (times_len values_len : ℕ) : Bool :=
  times_len == values_len / (if i = Interp.CUBIC_SPLINE then 3 else 1)

/-- Vectors, modelled with exact rational components. -/
abbrev Vec3 : Type := ℚ × ℚ × ℚ

def v3add (a b : Vec3) : Vec3 := (a.1 + b.1, a.2.1 + b.2.1, a.2.2 + b.2.2)

def v3sub (a b : Vec3) : Vec3 := (a.1 - b.1, a.2.1 - b.2.1, a.2.2 - b.2.2)

def v3scale (c : ℚ) (a : Vec3) : Vec3 := (c * a.1, c * a.2.1, c * a.2.2)

def v3zero : Vec3 := (0, 0, 0)

/-- SceneFormatImporterGLTFInterpolate::lerp. -/
def lerpV (a b : Vec3) (c : ℚ) : Vec3 := v3add a (v3scale c (v3sub b a))

/-- SceneFormatImporterGLTFInterpolate::catmull_rom. -/
def catmullRomV (p0 p1 p2 p3 : Vec3) (t : ℚ) : Vec3 :=
  v3scale (1 / 2)
    (v3add (v3add (v3scale 2 p1) (v3scale t (v3add (v3scale (-1) p0) p2)))
      (v3add
        (v3scale (t * t)
          (v3add (v3add (v3scale 2 p0) (v3scale (-5) p1)) (v3add (v3scale 4 p2) (v3scale (-1) p3))))
        (v3scale (t * t * t)
          (v3add (v3add (v3scale (-1) p0) (v3scale 3 p1)) (v3add (v3scale (-3) p2) p3)))))

/-- SceneFormatImporterGLTFInterpolate::bezier. -/
def bezierV (start control_1 control_2 endp : Vec3) (t : ℚ) : Vec3 :=
  let omt := 1 - t
  let omt2 := omt * omt
  let omt3 := omt2 * omt
  let t2 := t * t
  let t3 := t2 * t
  v3add (v3add (v3scale omt3 start) (v3scale (omt2 * t * 3) control_1))
    (v3add (v3scale (omt * t2 * 3) control_2) (v3scale t3 endp))

/-- FBXDocument::_interpolate_track instantiated at vectors.  The index
scan stops at the first keyframe time strictly past the query time. -/
def _interpolate_track (p_times : List ℚ) (p_values : List Vec3) (p_time : ℚ)
    (p_interp : Interp) : Vec3 :=
  if p_values.length = 0 then v3zero
  else if ¬ tracksCorresponding p_interp p_times.length p_values.length then atD p_values 0 v3zero
  else
    let idx : ℤ := ((p_times.takeWhile (fun x => decide (x ≤ p_time))).length : ℤ) - 1
    match p_interp with
    | Interp.LINEAR =>
      if idx = -1 then atD p_values 0 v3zero
      else if idx ≥ (p_times.length : ℤ) - 1 then atD p_values (p_times.length - 1) v3zero
      else
        let c := (p_time - atD p_times idx.toNat 0) /
          (atD p_times (idx.toNat + 1) 0 - atD p_times idx.toNat 0)
        lerpV (atD p_values idx.toNat v3zero) (atD p_values (idx.toNat + 1) v3zero) c
    | Interp.STEP =>
      if idx = -1 then atD p_values 0 v3zero
      else if idx ≥ (p_times.length : ℤ) - 1 then atD p_values (p_times.length - 1) v3zero
      else atD p_values idx.toNat v3zero
    | Interp.CATMULLROMSPLINE =>
      if idx = -1 then atD p_values 1 v3zero
      else if idx ≥ (p_times.length : ℤ) - 1 then atD p_values (1 + p_times.length - 1) v3zero
      else
        let c := (p_time - atD p_times idx.toNat 0) /
          (atD p_times (idx.toNat + 1) 0 - atD p_times idx.toNat 0)
        catmullRomV (atD p_values (idx - 1).toNat v3zero) (atD p_values idx.toNat v3zero)
          (atD p_values (idx.toNat + 1) v3zero) (atD p_values (idx.toNat + 3) v3zero) c
    | Interp.CUBIC_SPLINE =>
      if idx = -1 then atD p_values 1 v3zero
      else if idx ≥ (p_times.length : ℤ) - 1 then
        atD p_values ((p_times.length - 1) * 3 + 1) v3zero
      else
        let c := (p_time - atD p_times idx.toNat 0) /
          (atD p_times (idx.toNat + 1) 0 - atD p_times idx.toNat 0)
        let from_ := atD p_values (idx.toNat * 3 + 1) v3zero
        let c1 := v3add from_ (atD p_values (idx.toNat * 3 + 2) v3zero)
        let to_ := atD p_values (idx.toNat * 3 + 4) v3zero
        let c2 := v3add to_ (atD p_values (idx.toNat * 3 + 3) v3zero)
        bezierV from_ c1 c2 to_ c

/-! ## Skin/skeleton resolver

The DisjointSet template used by the resolver is Godot core code, not
part of the reviewed sources.  Its use is modelled from the spec: the
union pass links each inserted node to its parent when the parent is
also in the inserted set, so connected components are exactly the
fibers of the climb-to-the-highest-in-set map setTop below, and the
spec describes the resulting representatives as the disjoint roots of
maximal in-set subtrees.  get_representatives is modelled as the
deduplicated image of setTop in insertion order and get_members as the
component fiber; _find_highest_node (which is in the sources) is then
applied to the members exactly as in _expand_skin and _verify_skin. -/

def nodeAt (st : FBXState) (i : ℕ) : FBXNode := atD st.nodes i default

def parentOf (st : FBXState) (i : ℕ) : Option ℕ := (nodeAt st i).parent

def heightOf (st : FBXState) (i : ℕ) : ℕ := (nodeAt st i).height

def jointOf (st : FBXState) (i : ℕ) : Bool := (nodeAt st i).joint

def childrenOf (st : FBXState) (i : ℕ) : List ℕ := (nodeAt st i).children

/-- Fueled climb from a node to the highest ancestor reachable without
leaving the set S (the top of the node's union-find component). -/
def setTopF (st : FBXState) (S : List ℕ) : ℕ → ℕ → ℕ
  | 0, x => x
  | fuel + 1, x =>
    match parentOf st x with
    | none => x
    | some p => if p ∈ S then setTopF st S fuel p else x

/-- Top of the union-find component of x over the node set S. -/
def setTop (st : FBXState) (S : List ℕ) (x : ℕ) : ℕ :=
  setTopF st S st.nodes.length x

/-- FBXDocument::_find_highest_node: the first node of the subset with
minimal height (the source scans with a running best, -1 when empty). -/
def _find_highest_node (st : FBXState) (subset : List ℕ) : Option ℕ :=
  subset.foldl
    (fun best node_i =>
      match best with
      | none => some node_i
      | some b => if heightOf st node_i < heightOf st b then some node_i else some b)
    none

/-- The joints ++ non_joints working list both _expand_skin and
_verify_skin build. -/
def skin_all_nodes (sk : FBXSkin) : List ℕ := sk.joints ++ sk.non_joints

/-- Members of one union-find component (each inserted node once). -/
def get_members (st : FBXState) (all : List ℕ) (o : ℕ) : List ℕ :=
  all.dedup.filter (fun x => setTop st all x = o)

/-- The shared root recomputation of _expand_skin and _verify_skin:
representatives, members, highest member of each, sorted ascending.
none embeds the ERR_FAIL on a -1 highest node. -/
def rootsOfNodeSets (st : FBXState) (all : List ℕ) : Option (List ℕ) :=
  let owners := (all.map (setTop st all)).dedup
  match optMapList (fun o => _find_highest_node st (get_members st all o)) owners with
  | none => none
  | some rs => some (isort rs)

/-- The joint/non-joint classification push of the resolver: a joint-
tagged node not yet listed goes to joints, otherwise a node not yet in
non_joints goes there. -/
def addJointOrNon (st : FBXState) (sk : FBXSkin) (p : ℕ) : FBXSkin :=
  if jointOf st p = true ∧ vfind sk.joints p < 0 then
    { sk with joints := sk.joints ++ [p] }
  else if vfind sk.non_joints p < 0 then
    { sk with non_joints := sk.non_joints ++ [p] }
  else sk

/-- The per-root climb of _capture_nodes_for_multirooted_skin that
lifts a root to the common (minimal) height, classifying each visited
parent. -/
def climbToLevel (st : FBXState) (maxHeight : ℕ) : ℕ → FBXSkin → ℕ → FBXSkin × ℕ
  | 0, sk, cur => (sk, cur)
  | fuel + 1, sk, cur =>
    if heightOf st cur > maxHeight then
      match parentOf st cur with
      | none => (sk, cur)
      | some p => climbToLevel st maxHeight fuel (addJointOrNon st sk p) p
    else (sk, cur)

/-- The leveling pass over all representatives. -/
def levelRoots (st : FBXState) (maxHeight : ℕ) (reps : List ℕ) (sk : FBXSkin) :
    FBXSkin × List ℕ :=
  reps.foldl
    (fun acc r =>
      let sr := climbToLevel st maxHeight st.nodes.length acc.1 r
      (sr.1, acc.2 ++ [sr.2]))
    (sk, [])

/-- The all-roots-share-a-parent test of the lock-step loop. -/
def allSameParent (st : FBXState) (roots : List ℕ) : Bool :=
  roots.all (fun r => parentOf st r = parentOf st (roots.headD 0))

/-- The lock-step climb of _capture_nodes_for_multirooted_skin: while
the roots do not share one parent, classify every root's parent and
move every root up one level. -/
def lockstep (st : FBXState) : ℕ → FBXSkin → List ℕ → FBXSkin × List ℕ
  | 0, sk, roots => (sk, roots)
  | fuel + 1, sk, roots =>
    if allSameParent st roots then (sk, roots)
    else
      let sk' := roots.foldl
        (fun s r =>
          match parentOf st r with
          | some p => addJointOrNon st s p
          | none => s)
        sk
      let roots' := roots.map (fun r => (parentOf st r).getD r)
      lockstep st fuel sk' roots'

/-- The source's running minimum over the representative heights (the
maxHeight variable of _capture_nodes_for_multirooted_skin). -/
def minHeightList (st : FBXState) (l : List ℕ) : ℕ :=
  match l with
  | [] => 0
  | a :: t => t.foldl (fun mh r => if heightOf st r < mh then heightOf st r else mh) (heightOf st a)

/-- FBXDocument::_capture_nodes_for_multirooted_skin. -/
def _capture_nodes_for_multirooted_skin (st : FBXState) (sk : FBXSkin) : FBXSkin :=
  let reps := (sk.joints.map (setTop st sk.joints)).dedup
  if reps.length ≤ 1 then sk
  else
    let m := minHeightList st reps
    let lr := levelRoots st m reps sk
    (lockstep st st.nodes.length lr.1 lr.2).1

/-- FBXDocument::_capture_nodes_in_skin: depth-first walk that, once a
descendant chain reaches a listed joint, classifies the node; returns
whether the node sits in the skin's joint list at a positive index
(the source's joints.find(node) > 0). -/
def _capture_nodes_in_skin (st : FBXState) : ℕ → FBXSkin → ℕ → FBXSkin × Bool
  | 0, sk, _ => (sk, false)
  | fuel + 1, sk, i =>
    let r := (childrenOf st i).foldl
      (fun (acc : FBXSkin × Bool) c =>
        let rc := _capture_nodes_in_skin st fuel acc.1 c
        (rc.1, acc.2 || rc.2))
      (sk, false)
    let sk2 := if r.2 then addJointOrNon st r.1 i else r.1
    (sk2, decide (vfind sk2.joints i > 0))

/-- FBXDocument::_expand_skin. -/
def _expand_skin (st : FBXState) (sk : FBXSkin) : Option FBXSkin :=
  let sk1 := _capture_nodes_for_multirooted_skin st sk
  match rootsOfNodeSets st (skin_all_nodes sk1) with
  | none => none
  | some out_roots =>
    let sk2 := out_roots.foldl
      (fun s r => (_capture_nodes_in_skin st st.nodes.length s r).1) sk1
    some { sk2 with roots := out_roots }

/-- FBXDocument::_verify_skin: recompute the root set, require it to be
nonempty and identical to the stored roots, and for a multi-rooted skin
require one shared parent.  true is OK. -/
def _verify_skin (st : FBXState) (sk : FBXSkin) : Bool :=
  match rootsOfNodeSets st (skin_all_nodes sk) with
  | none => false
  | some out_roots =>
    if out_roots.length = 0 then false
    else if ¬ (out_roots = sk.roots) then false
    else if out_roots.length = 1 then true
    else allSameParent st out_roots

/-- Parent/height agreement at one node: in-range parent one level up,
or height 0 at a root. -/
def parentHeightOK (st : FBXState) (i : ℕ) : Prop :=
  match parentOf st i with
  | some p => p < st.nodes.length ∧ heightOf st i = heightOf st p + 1
  | none => heightOf st i = 0

instance (st : FBXState) (i : ℕ) : Decidable (parentHeightOK st i) := by
  unfold parentHeightOK
  cases parentOf st i
  · exact inferInstanceAs (Decidable (_ = _))
  · exact inferInstanceAs (Decidable (_ ∧ _))

/-- Well-formedness of the node forest of a state: parents are in
range, the stored heights are root distances (so height 0 exactly at
roots), heights are bounded by the node count, and children lists agree
with the parent pointers. -/
def WFState (st : FBXState) : Prop :=
  ∀ i, i < st.nodes.length →
    parentHeightOK st i ∧
    heightOf st i < st.nodes.length ∧
    (∀ c ∈ childrenOf st i, c < st.nodes.length ∧ parentOf st c = some i)

instance (st : FBXState) : Decidable (WFState st) := by
  unfold WFState
  infer_instance

/-! ## Claim C3: skip-level non-joint scenario -/

/-- The C3 document: one skin of 3 joints occupying nodes 0, 1 and 3;
node 2 is a non-joint child of node 0 (joint 0) and the parent of node
3 (joint 2). -/
def stC3 : FBXState :=
  { nodes :=
      [ { parent := none, children := [1, 2], joint := true, height := 0 },
        { parent := some 0, children := [], joint := true, height := 1 },
        { parent := some 0, children := [3], joint := false, height := 1 },
        { parent := some 2, children := [], joint := true, height := 2 } ],
    buffers := [], buffer_views := [], accessors := [] }

/-- The C3 skin: joints 0, 1, 2 of the skin are nodes 0, 1, 3. -/
def skC3 : FBXSkin := { joints := [0, 1, 3], non_joints := [], roots := [] }

/-- C3: for a document with one skin of 3 joints in which joint 2's
parent is a non-joint node whose own parent is joint 0, _expand_skin
adds the intermediate non-joint node (node 2) to the skin's non_joints
list and resolves the root set to exactly the node occupied by joint 0
(node 0). -/
theorem C3_skip_level_non_joint_expansion :
    ∃ sk', _expand_skin stC3 skC3 = some sk' ∧
      2 ∈ sk'.non_joints ∧ sk'.roots = [0] := by
  refine ⟨{ joints := [0, 1, 3], non_joints := [2, 0], roots := [0] }, by decide, by decide, rfl⟩

/-! ## Claim C7: winding flip involution -/

/-- C7: the decode-side winding flip of _parse_meshes swaps the 2nd and
3rd index of every consecutive triple, and on any triangle-list index
sequence (length a multiple of 3) applying the flip twice restores the
original order, so a decode followed by the symmetric encode-side flip
restores the document's index order. -/
theorem C7_winding_flip_involution : ∀ l : List ℤ, l.length % 3 = 0 →
    flipWinding (flipWinding l) = l
  | [], _ => rfl
  | [a], h => by simp at h
  | [a, b], h => by simp at h
  | a :: b :: c :: rest, h => by
    have hr : rest.length % 3 = 0 := by
      simp only [List.length_cons] at h
      omega
    simp only [flipWinding]
    rw [C7_winding_flip_involution rest hr]

/-- Witness for C7 at a concrete triangle list. -/
theorem C7_winding_flip_involution_witness :
    ([0, 1, 2, 3, 4, 5] : List ℤ).length % 3 = 0 ∧
      flipWinding (flipWinding [0, 1, 2, 3, 4, 5]) = [0, 1, 2, 3, 4, 5] :=
  ⟨by decide, C7_winding_flip_involution [0, 1, 2, 3, 4, 5] (by decide)⟩

/-! ## Claim C6: per-vertex weight renormalization -/

/-- The tuple of gsize weights of vertex i inside a flat weight array. -/
def weightChunk (gsize : ℕ) (w : List ℚ) (i : ℕ) : List ℚ :=
  (w.drop (gsize * i)).take gsize

theorem sum_map_div (l : List ℚ) (s : ℚ) :
    (l.map (fun x => x / s)).sum = l.sum / s := by
  induction l with
  | nil => simp
  | cons a t ih => simp [ih, add_div]

theorem normWeightsAux_chunk (gsize : ℕ) (hg : 0 < gsize) :
    ∀ (m : ℕ) (fuel : ℕ) (w : List ℚ), w.length = gsize * m → w.length ≤ fuel →
      normWeightsAux gsize fuel w =
        (if (w.take gsize).sum > 0 then (w.take gsize).map (fun x => x / (w.take gsize).sum)
          else w.take gsize) ++ normWeightsAux gsize (fuel - 1) (w.drop gsize) ∨
        (m = 0 ∧ normWeightsAux gsize fuel w = []) := by
  intro m fuel w hlen hfuel
  cases m with
  | zero =>
    right
    have : w = [] := by
      cases w with
      | nil => rfl
      | cons a t => simp at hlen
    subst this
    exact ⟨rfl, by cases fuel <;> rfl⟩
  | succ m =>
    left
    have hw : w ≠ [] := by
      intro hc
      subst hc
      simp at hlen
      omega
    cases w with
    | nil => exact absurd rfl hw
    | cons a t =>
      have : 1 ≤ fuel := by
        simp at hfuel hlen ⊢
        omega
      obtain ⟨f, rfl⟩ : ∃ f, fuel = f + 1 := ⟨fuel - 1, by omega⟩
      simp only [normWeightsAux, Nat.add_sub_cancel]

/-- C6: every decoded per-vertex bone-weight tuple (4-wide from
WEIGHTS_0 alone, 8-wide from a merged WEIGHTS_0/WEIGHTS_1 pair) with a
positive component sum is rescaled by the _parse_meshes loop so that it
sums to exactly 1 (floats are modelled as exact rationals); a tuple
whose sum is not positive is left unchanged, so an all-zero tuple stays
all zero. -/
theorem C6_weight_renormalization (gsize m : ℕ) (w : List ℚ)
    (hg : gsize = 4 ∨ gsize = 8) (hlen : w.length = gsize * m) :
    ∀ i < m,
      (0 < (weightChunk gsize w i).sum →
        weightChunk gsize (normalizeWeights gsize w) i =
          (weightChunk gsize w i).map (fun x => x / (weightChunk gsize w i).sum) ∧
        (weightChunk gsize (normalizeWeights gsize w) i).sum = 1) ∧
      (¬ 0 < (weightChunk gsize w i).sum →
        weightChunk gsize (normalizeWeights gsize w) i = weightChunk gsize w i) := by
  have hg0 : 0 < gsize := by rcases hg with rfl | rfl <;> norm_num
  unfold normalizeWeights
  have main : ∀ (m : ℕ) (fuel : ℕ) (w : List ℚ), w.length = gsize * m → w.length ≤ fuel →
      ∀ i < m,
        (0 < (weightChunk gsize w i).sum →
          weightChunk gsize (normWeightsAux gsize fuel w) i =
            (weightChunk gsize w i).map (fun x => x / (weightChunk gsize w i).sum) ∧
          (weightChunk gsize (normWeightsAux gsize fuel w) i).sum = 1) ∧
        (¬ 0 < (weightChunk gsize w i).sum →
          weightChunk gsize (normWeightsAux gsize fuel w) i = weightChunk gsize w i) := by
    intro m
    induction m with
    | zero => intro fuel w hlen hfuel i hi; omega
    | succ m ih =>
      intro fuel w hlen hfuel i hi
      have hlen' : w.length = gsize * m + gsize := by
        rw [hlen, Nat.mul_succ]
      rcases normWeightsAux_chunk gsize hg0 (m + 1) fuel w hlen hfuel with heq | ⟨hm0, _⟩
      · have htlen : (w.take gsize).length = gsize := by
          rw [List.length_take]
          omega
        have hchunklen :
            (if (w.take gsize).sum > 0 then
              (w.take gsize).map (fun x => x / (w.take gsize).sum)
            else w.take gsize).length = gsize := by
          by_cases hs : (w.take gsize).sum > 0 <;> simp [hs, htlen] <;> omega
        cases i with
        | zero =>
          have hchunk0 : weightChunk gsize w 0 = w.take gsize := by
            simp [weightChunk]
          rw [heq]
          have hout0 :
              weightChunk gsize
                ((if (w.take gsize).sum > 0 then
                    (w.take gsize).map (fun x => x / (w.take gsize).sum)
                  else w.take gsize) ++ normWeightsAux gsize (fuel - 1) (w.drop gsize)) 0 =
                (if (w.take gsize).sum > 0 then
                  (w.take gsize).map (fun x => x / (w.take gsize).sum)
                else w.take gsize) := by
            simp only [weightChunk, Nat.mul_zero, List.drop_zero]
            rw [List.take_append_of_le_length (by omega)]
            rw [List.take_of_length_le (by omega)]
          rw [hout0, hchunk0]
          constructor
          · intro hpos
            rw [if_pos hpos]
            refine ⟨rfl, ?_⟩
            rw [sum_map_div]
            exact div_self (ne_of_gt hpos)
          · intro hneg
            rw [if_neg (by simpa using hneg)]
        | succ i =>
          have hwdlen : (w.drop gsize).length = gsize * m := by
            rw [List.length_drop]
            omega
          have hwdfuel : (w.drop gsize).length ≤ fuel - 1 := by
            rw [hwdlen]
            omega
          have ihres := ih (fuel - 1) (w.drop gsize) hwdlen hwdfuel i (by omega)
          have hshift : ∀ (l : List ℚ) (pre : List ℚ), pre.length = gsize →
              weightChunk gsize (pre ++ l) (i + 1) = weightChunk gsize l i := by
            intro l pre hpre
            simp only [weightChunk]
            have harith : gsize * (i + 1) = pre.length + gsize * i := by
              rw [hpre, Nat.mul_succ]
              omega
            rw [harith, List.drop_append]
          have hshiftw : weightChunk gsize w (i + 1) = weightChunk gsize (w.drop gsize) i := by
            have hsplit : w = w.take gsize ++ w.drop gsize := (List.take_append_drop gsize w).symm
            conv in weightChunk gsize w (i+1) => rw [hsplit]
            exact hshift (w.drop gsize) (w.take gsize) htlen
          rw [heq, hshift _ _ hchunklen, hshiftw]
          exact ihres
      · omega
  exact main m w.length w hlen (le_refl _)

/-- Witness for C6: an 8-wide pair tuple of sum 2 and an all-zero
tuple. -/
theorem C6_weight_renormalization_witness :
    (8 = 4 ∨ 8 = 8) ∧
      ((0 < (weightChunk 8 [1, 1, 0, 0, 0, 0, 0, 0, 0, 0, 0, 0, 0, 0, 0, 0] 0).sum →
        weightChunk 8 (normalizeWeights 8 [1, 1, 0, 0, 0, 0, 0, 0, 0, 0, 0, 0, 0, 0, 0, 0]) 0 =
          (weightChunk 8 [1, 1, 0, 0, 0, 0, 0, 0, 0, 0, 0, 0, 0, 0, 0, 0] 0).map
            (fun x => x / (weightChunk 8 [1, 1, 0, 0, 0, 0, 0, 0, 0, 0, 0, 0, 0, 0, 0, 0] 0).sum) ∧
        (weightChunk 8 (normalizeWeights 8 [1, 1, 0, 0, 0, 0, 0, 0, 0, 0, 0, 0, 0, 0, 0, 0]) 0).sum = 1) ∧
      (¬ 0 < (weightChunk 8 [1, 1, 0, 0, 0, 0, 0, 0, 0, 0, 0, 0, 0, 0, 0, 0] 0).sum →
        weightChunk 8 (normalizeWeights 8 [1, 1, 0, 0, 0, 0, 0, 0, 0, 0, 0, 0, 0, 0, 0, 0]) 0 =
          weightChunk 8 [1, 1, 0, 0, 0, 0, 0, 0, 0, 0, 0, 0, 0, 0, 0, 0] 0)) :=
  ⟨Or.inr rfl,
    C6_weight_renormalization 8 2 [1, 1, 0, 0, 0, 0, 0, 0, 0, 0, 0, 0, 0, 0, 0, 0]
      (Or.inr rfl) (by decide) 0 (by decide)⟩

/-! ## Claim C10: accessor without buffer view -/

/-- C10: an accessor with no buffer view reference and no sparse data
decodes successfully to count * componentCount zeros rather than
failing. -/
theorem C10_absent_buffer_view_zero_fill (st : FBXState) (ai : ℕ) (a : FBXAccessor)
    (ha : atD (st.accessors.map Option.some) ai none = some a)
    (hbv : a.buffer_view = none) (hsp : a.sparse_count = 0) (fv : Bool) :
    _decode_accessor st ai fv =
      some (List.replicate (a.count * component_count_for_type a.type) 0) := by
  simp [_decode_accessor, ha, hbv, hsp]

/-- A one-accessor state for the C10 witness: VEC3 accessor of count 2
with no buffer view and no sparse override. -/
def stC10 : FBXState :=
  { nodes := [], buffers := [], buffer_views := [],
    accessors :=
      [ { buffer_view := none, byte_offset := 0, component_type := CompType.FLOAT,
          normalized := false, count := 2, type := AccType.VEC3, sparse_count := 0,
          sparse_indices_buffer_view := 0, sparse_indices_byte_offset := 0,
          sparse_indices_component_type := CompType.UNSIGNED_SHORT,
          sparse_values_buffer_view := 0, sparse_values_byte_offset := 0 } ] }

/-- Witness for C10 at the concrete one-accessor state. -/
theorem C10_absent_buffer_view_zero_fill_witness :
    _decode_accessor stC10 0 false = some (List.replicate (2 * 3) 0) :=
  C10_absent_buffer_view_zero_fill stC10 0
    { buffer_view := none, byte_offset := 0, component_type := CompType.FLOAT,
      normalized := false, count := 2, type := AccType.VEC3, sparse_count := 0,
      sparse_indices_buffer_view := 0, sparse_indices_byte_offset := 0,
      sparse_indices_component_type := CompType.UNSIGNED_SHORT,
      sparse_values_buffer_view := 0, sparse_values_byte_offset := 0 }
    (by decide) (by decide) (by decide) false

/-! ## Claim C4: spline value triplets and the correspondence guard -/

/-- C4 counterexample: with CATMULLROMSPLINE interpolation, two keys
and six values (exactly 3 per key), the sampler does NOT treat times
and values as corresponding: the guard compares against values.size()
divided by 1 for this mode, so the track falls back to its first value
instead of sampling (at time 10, the final key, sampling would return
the center value of the last triplet, 3). -/
theorem C4_triplet_guard_counterexample :
    (6 = 3 * 2) ∧
      tracksCorresponding Interp.CATMULLROMSPLINE 2 6 = false ∧
      _interpolate_track [0, 10]
        [(1, 0, 0), (2, 0, 0), (3, 0, 0), (4, 0, 0), (5, 0, 0), (6, 0, 0)]
        10 Interp.CATMULLROMSPLINE = (1, 0, 0) := by
  refine ⟨rfl, rfl, ?_⟩
  simp [_interpolate_track, tracksCorresponding, atD]

/-- C4 as amended: parse accepts a spline-mode morph-weight channel
precisely when its value count is 3 * times * targets; the sampler's
correspondence guard for CUBICSPLINE is times.size() == values.size() / 3
(integer division), which in particular holds whenever values.size() ==
3 * times.size(); but for CATMULLROMSPLINE the guard divides by 1, so a
3-per-key Catmull-Rom channel with at least one key always falls back
to the first value. -/
theorem C4_spline_triplets_amended :
    (∀ i : Interp, i = Interp.CATMULLROMSPLINE ∨ i = Interp.CUBIC_SPLINE →
      ∀ tl wc wl : ℕ, (weightChannelAccepted i tl wc wl = true ↔ wl = 3 * tl * wc)) ∧
    (∀ tl vl : ℕ, vl = 3 * tl → tracksCorresponding Interp.CUBIC_SPLINE tl vl = true) ∧
    (∀ (times : List ℚ) (values : List Vec3) (t : ℚ),
      values.length = 3 * times.length → times ≠ [] →
      _interpolate_track times values t Interp.CATMULLROMSPLINE = atD values 0 v3zero) := by
  refine ⟨?_, ?_, ?_⟩
  · intro i hi tl wc wl
    have hoc : animOutputCount i = 3 := by
      rcases hi with rfl | rfl <;> rfl
    have harith : tl * 3 * wc = 3 * tl * wc := by ring
    simp [weightChannelAccepted, hoc, harith]
  · intro tl vl hvl
    subst hvl
    have : 3 * tl / 3 = tl := Nat.mul_div_cancel_left tl (by norm_num)
    simp [tracksCorresponding, this]
  · intro times values t hlen hne
    have htpos : 0 < times.length := List.length_pos.mpr hne
    have hvne : values.length ≠ 0 := by omega
    have hguard : tracksCorresponding Interp.CATMULLROMSPLINE times.length values.length = false := by
      simp only [tracksCorresponding]
      simp only [show (Interp.CATMULLROMSPLINE = Interp.CUBIC_SPLINE) = False from by
        simp, if_false, Nat.div_one]
      simp only [beq_eq_false_iff_ne, ne_eq]
      omega
    simp [_interpolate_track, hvne, hguard]

/-- Witness for C4 as amended, at concrete channel sizes and a concrete
Catmull-Rom track. -/
theorem C4_spline_triplets_amended_witness :
    weightChannelAccepted Interp.CUBIC_SPLINE 2 1 6 = true ∧
      tracksCorresponding Interp.CUBIC_SPLINE 2 6 = true ∧
      _interpolate_track [0, 1] [(1, 0, 0), (2, 0, 0), (3, 0, 0), (4, 0, 0), (5, 0, 0), (6, 0, 0)]
        (1 / 2) Interp.CATMULLROMSPLINE =
        atD [((1 : ℚ), (0 : ℚ), (0 : ℚ)), (2, 0, 0), (3, 0, 0), (4, 0, 0), (5, 0, 0), (6, 0, 0)] 0 v3zero :=
  ⟨(C4_spline_triplets_amended.1 Interp.CUBIC_SPLINE (Or.inr rfl) 2 1 6).mpr (by norm_num),
    C4_spline_triplets_amended.2.1 2 6 rfl,
    C4_spline_triplets_amended.2.2 [0, 1]
      [(1, 0, 0), (2, 0, 0), (3, 0, 0), (4, 0, 0), (5, 0, 0), (6, 0, 0)] (1 / 2)
      (by decide) (by decide)⟩

/-! ## Claim C9: CUBICSPLINE endpoints of a two-key channel -/

/-- C9: for a CUBICSPLINE channel with exactly 2 keyframes (6 stored
values: in-tangent, value, out-tangent per key), _interpolate_track at
the first keyframe's time returns the first keyframe's center value and
at or after the last keyframe's time returns the last keyframe's center
value; baking at a fixed rate over the track span therefore reproduces
both endpoint values. -/
theorem C9_cubic_two_keyframe_endpoints (t0 t1 : ℚ) (v0 v1 v2 v3 v4 v5 : Vec3) (t : ℚ)
    (h01 : t0 < t1) :
    _interpolate_track [t0, t1] [v0, v1, v2, v3, v4, v5] t0 Interp.CUBIC_SPLINE = v1 ∧
      (t1 ≤ t →
        _interpolate_track [t0, t1] [v0, v1, v2, v3, v4, v5] t Interp.CUBIC_SPLINE = v4) := by
  constructor
  · have hd0 : decide (t0 ≤ t0) = true := decide_eq_true (le_refl t0)
    have hd1 : decide (t1 ≤ t0) = false := decide_eq_false (not_le.mpr h01)
    simp only [_interpolate_track, List.length_cons, List.length_nil]
    rw [if_neg (by norm_num)]
    rw [if_neg (by simp [tracksCorresponding])]
    simp only [List.takeWhile, hd0, hd1, List.length_cons, List.length_nil]
    norm_num
    simp only [atD]
    have hc : (t0 - t0) / (t1 - t0) = 0 := by
      rw [sub_self, zero_div]
    rw [hc]
    obtain ⟨a, b, c⟩ := v1
    simp [bezierV, v3add, v3scale]
  · intro ht
    have hd0 : decide (t0 ≤ t) = true := decide_eq_true (le_of_lt (lt_of_lt_of_le h01 ht))
    have hd1 : decide (t1 ≤ t) = true := decide_eq_true ht
    simp only [_interpolate_track, List.length_cons, List.length_nil]
    rw [if_neg (by norm_num)]
    rw [if_neg (by simp [tracksCorresponding])]
    simp only [List.takeWhile, hd0, hd1, List.length_cons, List.length_nil]
    norm_num
    simp [atD]

/-- Witness for C9 at a concrete two-key cubic channel. -/
theorem C9_cubic_two_keyframe_endpoints_witness :
    ((0 : ℚ) < 1) ∧
      _interpolate_track [0, 1]
        [(1, 1, 1), (2, 2, 2), (3, 3, 3), (4, 4, 4), (5, 5, 5), (6, 6, 6)]
        0 Interp.CUBIC_SPLINE = (2, 2, 2) ∧
      ((1 : ℚ) ≤ 7 →
        _interpolate_track [0, 1]
          [(1, 1, 1), (2, 2, 2), (3, 3, 3), (4, 4, 4), (5, 5, 5), (6, 6, 6)]
          7 Interp.CUBIC_SPLINE = (5, 5, 5)) :=
  ⟨by norm_num,
    (C9_cubic_two_keyframe_endpoints 0 1 (1, 1, 1) (2, 2, 2) (3, 3, 3) (4, 4, 4) (5, 5, 5)
        (6, 6, 6) 7 (by norm_num)).1,
    (C9_cubic_two_keyframe_endpoints 0 1 (1, 1, 1) (2, 2, 2) (3, 3, 3) (4, 4, 4) (5, 5, 5)
        (6, 6, 6) 7 (by norm_num)).2⟩

/-! ## Claim C5: matrix alignment padding -/

/-- C5 buffer: nine unsigned shorts 1..9 at byte positions 0, 2, 4, 6,
8, 10, 16, 18, 20 (the 6-skip-4 layout), with junk in the skipped
bytes 12..15. -/
def bytesC5 : List ℚ :=
  [1, 0, 2, 0, 3, 0, 4, 0, 5, 0, 6, 0, 77, 77, 77, 77, 7, 0, 8, 0, 9, 0]

/-- C5 state: a one-element unsigned short MAT3 accessor over that
buffer. -/
def stC5 : FBXState :=
  { nodes := [], buffers := [bytesC5],
    buffer_views :=
      [ { buffer := 0, byte_offset := 0, byte_length := 22, byte_stride := none } ],
    accessors :=
      [ { buffer_view := some 0, byte_offset := 0, component_type := CompType.UNSIGNED_SHORT,
          normalized := false, count := 1, type := AccType.MAT3, sparse_count := 0,
          sparse_indices_buffer_view := 0, sparse_indices_byte_offset := 0,
          sparse_indices_component_type := CompType.UNSIGNED_SHORT,
          sparse_values_buffer_view := 0, sparse_values_byte_offset := 0 } ] }

/-- C5: the byte/short matrix accessors use the fixed padding table in
both the encoder and the accessor decoder - byte+MAT2 skips 2 bytes
after every run of 2 components, byte+MAT3 skips 1 after every 3,
short+MAT3 skips 4 after every 6 (element size overridden to 16) - and
decoding a one-element unsigned short MAT3 accessor applies the
6-skip-4 rule, returning the 9 values found at the padded byte
positions 0, 2, 4, 6, 8, 10, 16, 18, 20. -/
theorem C5_matrix_padding :
    alignSkip CompType.BYTE AccType.MAT2 = (2, 2) ∧
      alignSkip CompType.UNSIGNED_BYTE AccType.MAT2 = (2, 2) ∧
      alignSkip CompType.BYTE AccType.MAT3 = (3, 1) ∧
      alignSkip CompType.UNSIGNED_BYTE AccType.MAT3 = (3, 1) ∧
      alignSkip CompType.SHORT AccType.MAT3 = (6, 4) ∧
      alignSkip CompType.UNSIGNED_SHORT AccType.MAT3 = (6, 4) ∧
      accElementSize CompType.UNSIGNED_SHORT AccType.MAT3 = 16 ∧
      _decode_accessor stC5 0 false = some [1, 2, 3, 4, 5, 6, 7, 8, 9] := by
  refine ⟨rfl, rfl, rfl, rfl, rfl, rfl, rfl, ?_⟩
  simp only [_decode_accessor, stC5, bytesC5, atD, List.map_cons, List.map_nil,
    alignSkip, accElementSize, component_count_for_type, _get_component_type_size]
  norm_num
  simp only [_decode_buffer_view, decodeSpan, decodeStride, atD, List.map_cons, List.map_nil]
  norm_num
  simp only [List.range_succ, List.range_zero, lcat, readElem, decodeComp, readUInt, atD,
    List.nil_append, List.append_nil]
  norm_num

/-! ## Claim C8: buffer view range checking -/

/-- C8 counterexample state: a 4-byte view at offset 0 into an 8-byte
buffer of zeros. -/
def stC8 : FBXState :=
  { nodes := [], buffers := [[0, 0, 0, 0, 0, 0, 0, 0]],
    buffer_views :=
      [ { buffer := 0, byte_offset := 0, byte_length := 4, byte_stride := none } ],
    accessors := [] }

/-- C8 counterexample: an int32 scalar decode with accessor byte offset
4 from the 4-byte view.  The accessor's byte offset plus the required
span (8) exceeds the declared view length (4), so the claim says the
decode fails with a range error - but _decode_buffer_view succeeds and
returns a value, because its view-length check compares the span alone
(without the accessor offset) against the view length. -/
theorem C8_range_check_counterexample :
    ((4 : ℤ) + (4 * ((1 : ℤ) - 1) + 4) > (4 : ℤ)) ∧
      _decode_buffer_view stC8 0 0 0 4 1 1 CompType.INT 4 false 4 false = some [0] := by
  constructor
  · norm_num
  · simp only [_decode_buffer_view, decodeSpan, decodeStride, stC8, atD,
      List.map_cons, List.map_nil]
    norm_num
    simp only [List.range_succ, List.range_zero, lcat, readElem, decodeComp, readUInt,
      toSignedQ, atD, List.nil_append, List.append_nil]
    norm_num

/-- C8 as amended: _decode_buffer_view (with a resolvable view and
buffer) fails, writing no decoded values, precisely when the required
span - effective stride times (count - 1) plus element size - exceeds
the declared view length on its own, or when view byte offset plus
accessor byte offset plus the span exceeds the underlying buffer size;
otherwise it succeeds.  The accessor byte offset is not counted against
the view length, only against the buffer size (which also includes the
view offset). -/
theorem C8_range_check_amended (st : FBXState) (bvi : ℕ) (bv : FBXBufferView) (buf : List ℚ)
    (se sb es cnt cc : ℕ) (ct : CompType) (cs : ℕ) (norm : Bool) (off : ℕ) (fv : Bool)
    (hbv : atD (st.buffer_views.map Option.some) bvi none = some bv)
    (hbuf : atD (st.buffers.map Option.some) bv.buffer none = some buf) :
    (_decode_buffer_view st bvi se sb es cnt cc ct cs norm off fv = none ↔
      (decodeSpan bv es cnt fv > (bv.byte_length : ℤ) ∨
        ((bv.byte_offset + off : ℕ) : ℤ) + decodeSpan bv es cnt fv > (buf.length : ℤ))) := by
  simp only [_decode_buffer_view, hbv, hbuf]
  split_ifs with h1 h2
  · exact iff_of_true rfl (Or.inl h1)
  · exact iff_of_true rfl (Or.inr h2)
  · refine iff_of_false (by simp) ?_
    push_neg at h1 h2 ⊢
    exact ⟨h1, h2⟩

/-- Witness for C8 as amended, at the C8 state with a failing span. -/
theorem C8_range_check_amended_witness :
    (_decode_buffer_view stC8 0 0 0 8 1 1 CompType.INT 4 false 0 false = none ↔
      (decodeSpan { buffer := 0, byte_offset := 0, byte_length := 4, byte_stride := none }
          8 1 false > ((4 : ℕ) : ℤ) ∨
        (((0 + 0 : ℕ) : ℕ) : ℤ) +
            decodeSpan { buffer := 0, byte_offset := 0, byte_length := 4, byte_stride := none }
              8 1 false > (([0, 0, 0, 0, 0, 0, 0, 0] : List ℚ).length : ℤ))) :=
  C8_range_check_amended stC8 0
    { buffer := 0, byte_offset := 0, byte_length := 4, byte_stride := none }
    [0, 0, 0, 0, 0, 0, 0, 0] 0 0 8 1 1 CompType.INT 4 false 0 false rfl rfl

/-! ## Claim C2: buffer codec round trip -/

/-- C2 counterexample initial state: one empty main buffer. -/
def stC2 : FBXState := { nodes := [], buffers := [[]], buffer_views := [], accessors := [] }

/-- The state after the C2 counterexample encode. -/
def stC2' : FBXState :=
  { nodes := [], buffers := [[0, 0, 0, 0, 0, 0]],
    buffer_views := [ { buffer := 0, byte_offset := 0, byte_length := 6, byte_stride := none } ],
    accessors := [] }

/-- C2 counterexample: a normalized byte VEC3 for-vertex array of two
elements encodes successfully (densely, 6 bytes), but decoding the
resulting view with the same layout fails outright with a range error
instead of returning the original values: the for-vertex rule rounds
the decode stride from the 3-byte element size up to 4, so the
required span (7) exceeds the view length (6).  The claim's round-trip
equality therefore fails for this layout. -/
theorem C2_roundtrip_counterexample :
    _encode_buffer_view stC2 [0, 0, 0, 0, 0, 0] 2 AccType.VEC3 CompType.BYTE true 0 true =
      some (stC2', 0) ∧
      _decode_buffer_view stC2' 0 0 0 3 2 3 CompType.BYTE 1 true 0 true = none := by
  constructor
  · simp only [_encode_buffer_view, stC2, stC2', atD, List.map_cons, List.map_nil,
      component_count_for_type, _get_component_type_size, alignSkip, encAll, encElem, setAt,
      convSlot, scaleEnc, truncQ, lcat, slotCells, intLE, List.replicate, zero_mul,
      Int.floor_zero, Option.map_some, Option.map_none]
    norm_num [setAt]
    norm_num [lcat, slotCells, intLE, _get_component_type_size]
    simp
  · simp only [_decode_buffer_view, decodeSpan, decodeStride, stC2', atD, List.map_cons,
      List.map_nil]
    norm_num

/-- Values the round trip covers, per component type: int32 holds an
integral value in range, float32 a binary32-representable rational,
and the normalized narrow types a value of the type's normalized
range. -/
def ValOK (ct : CompType) (x : ℚ) : Prop :=
  match ct with
  | CompType.BYTE => -1 ≤ x ∧ x ≤ 127 / 128
  | CompType.UNSIGNED_BYTE => 0 ≤ x ∧ x ≤ 1
  | CompType.SHORT => -1 ≤ x ∧ x ≤ 32767 / 32768
  | CompType.UNSIGNED_SHORT => 0 ≤ x ∧ x ≤ 1
  | CompType.INT => ∃ z : ℤ, x = (z : ℚ) ∧ -(2 ^ 31) ≤ z ∧ z < 2 ^ 31
  | CompType.FLOAT =>
    ∃ m e : ℤ, x = (m : ℚ) * (2 : ℚ) ^ e ∧ m.natAbs ≤ 2 ^ 24 ∧ -149 ≤ e ∧ e ≤ 104

/-- The quantization error bound of the round trip: zero for the exact
lanes, one over the scale magnitude for the normalized narrow types. -/
def errBound (ct : CompType) : ℚ :=
  match ct with
  | CompType.BYTE => 1 / 128
  | CompType.UNSIGNED_BYTE => 1 / 255
  | CompType.SHORT => 1 / 32768
  | CompType.UNSIGNED_SHORT => 1 / 65535
  | CompType.INT => 0
  | CompType.FLOAT => 0

theorem atD_irrel {α : Type} (l : List α) (k : ℕ) (h : k < l.length) (d d' : α) :
    atD l k d = atD l k d' := by
  induction l generalizing k with
  | nil => simp at h
  | cons a t ih =>
    cases k with
    | zero => rfl
    | succ k => exact ih k (by simpa using h)

theorem atD_mem {α : Type} (l : List α) (k : ℕ) (h : k < l.length) (d : α) :
    atD l k d ∈ l := by
  induction l generalizing k with
  | nil => simp at h
  | cons a t ih =>
    cases k with
    | zero => exact List.mem_cons_self a t
    | succ k => exact List.mem_cons_of_mem a (ih k (by simpa using h))

theorem atD_map {α β : Type} (f : α → β) (l : List α) (k : ℕ) (h : k < l.length)
    (d : β) (d' : α) : atD (l.map f) k d = f (atD l k d') := by
  induction l generalizing k with
  | nil => simp at h
  | cons a t ih =>
    cases k with
    | zero => rfl
    | succ k => exact ih k (by simpa using h)

theorem lcat_length {α : Type} (f : α → List ℚ) (w : ℕ) (l : List α)
    (hf : ∀ x ∈ l, (f x).length = w) : (lcat f l).length = l.length * w := by
  induction l with
  | nil => simp [lcat]
  | cons a t ih =>
    simp only [lcat, List.length_append, List.length_cons]
    rw [hf a (List.mem_cons_self a t), ih (fun x hx => hf x (List.mem_cons_of_mem a hx))]
    ring

theorem lcat_split {α : Type} (f : α → List ℚ) (l : List α) (k : ℕ) (h : k < l.length)
    (d : α) :
    lcat f l = lcat f (l.take k) ++ f (atD l k d) ++ lcat f (l.drop (k + 1)) := by
  induction l generalizing k with
  | nil => simp at h
  | cons a t ih =>
    cases k with
    | zero => simp [lcat, atD]
    | succ k =>
      simp only [List.take_succ_cons, List.drop_succ_cons, lcat, atD]
      rw [ih k (by simpa using h)]
      simp [List.append_assoc]

theorem truncQ_bounds (x : ℚ) (lo hi : ℤ) (hlo : (lo : ℚ) ≤ x) (hhi : x ≤ (hi : ℚ)) :
    lo ≤ truncQ x ∧ truncQ x ≤ hi := by
  unfold truncQ
  by_cases h : 0 ≤ x
  · rw [if_pos h]
    constructor
    · exact Int.le_floor.mpr hlo
    · calc ⌊x⌋ ≤ ⌊(hi : ℚ)⌋ := Int.floor_le_floor hhi
        _ = hi := Int.floor_intCast hi
  · rw [if_neg h]
    constructor
    · calc lo = ⌈(lo : ℚ)⌉ := (Int.ceil_intCast lo).symm
        _ ≤ ⌈x⌉ := Int.ceil_le_ceil hlo
    · exact Int.ceil_le.mpr hhi

theorem truncQ_err (x : ℚ) : |x - (truncQ x : ℚ)| < 1 := by
  unfold truncQ
  by_cases h : 0 ≤ x
  · rw [if_pos h, abs_of_nonneg (by linarith [Int.floor_le x])]
    linarith [Int.lt_floor_add_one x]
  · rw [if_neg h, abs_of_nonpos (by linarith [Int.le_ceil x])]
    linarith [Int.ceil_lt_add_one x]

theorem truncQ_intCast (z : ℤ) : truncQ (z : ℚ) = z := by
  unfold truncQ
  by_cases h : (0 : ℚ) ≤ (z : ℚ)
  · rw [if_pos h, Int.floor_intCast]
  · rw [if_neg h, Int.ceil_intCast]

/-- Two's-complement unwrap: reading back the wrapped stored pattern
recovers a value in the signed range. -/
theorem signed_wrap (t h : ℤ) (hh : 0 < h) (h1 : -h ≤ t) (h2 : t < h) :
    toSignedQ (h : ℚ) (2 * h : ℚ) ((t % (2 * h) : ℤ) : ℚ) = (t : ℚ) := by
  unfold toSignedQ
  by_cases ht : 0 ≤ t
  · have hmod : t % (2 * h) = t := Int.emod_eq_of_lt ht (by omega)
    rw [hmod, if_pos (by exact_mod_cast h2)]
  · have hmod : t % (2 * h) = t + 2 * h := by
      have h3 : (t + 2 * h) % (2 * h) = t % (2 * h) := by
        have := Int.add_mul_emod_self_left t (2 * h) 1
        simpa using this
      have h4 : (t + 2 * h) % (2 * h) = t + 2 * h := Int.emod_eq_of_lt (by omega) (by omega)
      exact h3.symm.trans h4
    rw [hmod]
    have hge : (h : ℚ) ≤ ((t + 2 * h : ℤ) : ℚ) := by
      exact_mod_cast (by omega : (h : ℤ) ≤ t + 2 * h)
    rw [if_neg (not_lt.mpr hge)]
    push_cast
    ring

/-- Reading the little-endian cells of an unsigned value recovers it. -/
theorem readUInt_intLE (cs : ℕ) (v : ℤ) (pre suf : List ℚ)
    (hv0 : 0 ≤ v) (hv : v < 2 ^ (8 * cs)) :
    readUInt (pre ++ intLE cs v ++ suf) pre.length cs = (v : ℚ) := by
  induction cs generalizing v pre with
  | zero =>
    have : v = 0 := by
      simp only [Nat.mul_zero, pow_zero] at hv
      omega
    simp [readUInt, this]
  | succ cs ih =>
    simp only [readUInt, intLE]
    have hb : atD (pre ++ ((((v % 256 : ℤ) : ℚ)) :: intLE cs (v / 256)) ++ suf) pre.length 0 =
        ((v % 256 : ℤ) : ℚ) := by
      rw [List.append_assoc]
      have := atD_append_right pre ((((v % 256 : ℤ) : ℚ)) :: (intLE cs (v / 256) ++ suf)) 0 0
      simpa using this
    rw [hb]
    have hrest : pre ++ ((((v % 256 : ℤ) : ℚ)) :: intLE cs (v / 256)) ++ suf =
        (pre ++ [((v % 256 : ℤ) : ℚ)]) ++ intLE cs (v / 256) ++ suf := by
      simp [List.append_assoc]
    rw [hrest]
    have hlen : pre.length + 1 = (pre ++ [((v % 256 : ℤ) : ℚ)]).length := by simp
    rw [hlen]
    have hpow : (2 : ℤ) ^ (8 * (cs + 1)) = 2 ^ (8 * cs) * 256 := by
      have : 8 * (cs + 1) = 8 * cs + 8 := by ring
      rw [this, pow_add]
      norm_num
    have hdiv : v / 256 < 2 ^ (8 * cs) := by
      apply Int.ediv_lt_of_lt_mul (by norm_num)
      omega
    rw [ih (v / 256) (pre ++ [((v % 256 : ℤ) : ℚ)])
      (Int.ediv_nonneg hv0 (by norm_num)) hdiv]
    have hsum : v % 256 + 256 * (v / 256) = v := Int.emod_add_ediv v 256
    exact_mod_cast hsum

/-- One-component round trip for the integer lanes: decoding the
stored cells of a value in range recovers it up to the quantization
bound. -/
theorem compRT (ct : CompType) (norm : Bool) (x : ℚ) (pre suf : List ℚ)
    (hct : ct ≠ CompType.FLOAT)
    (hn : ct = CompType.INT ∨ norm = true)
    (hv : ValOK ct x) :
    |decodeComp ct norm (pre ++ slotCells ct (convSlot ct norm x) ++ suf) pre.length - x| ≤
      errBound ct := by
  cases ct with
  | FLOAT => exact absurd rfl hct
  | INT =>
    obtain ⟨z, rfl, hz1, hz2⟩ := hv
    simp only [decodeComp, slotCells, convSlot, scaleEnc, _get_component_type_size, errBound]
    rw [readUInt_intLE 4 (truncQ ((z : ℚ)) % 2 ^ (8 * 4)) pre suf
      (Int.emod_nonneg _ (by norm_num)) (Int.emod_lt_of_pos _ (by norm_num))]
    rw [truncQ_intCast z]
    have hsw := signed_wrap z (2 ^ 31) (by norm_num) (by omega) (by omega)
    norm_num at hsw ⊢
    rw [hsw]
    simp
  | BYTE =>
    have hnorm : norm = true := by
      rcases hn with h | h
      · cases h
      · exact h
    subst hnorm
    obtain ⟨hlo, hhi⟩ := hv
    have hb := truncQ_bounds (x * 128) (-128) 127 (by push_cast; linarith) (by push_cast; linarith)
    have herr := truncQ_err (x * 128)
    simp only [decodeComp, slotCells, convSlot, scaleEnc, _get_component_type_size, if_true,
      errBound]
    rw [readUInt_intLE 1 (truncQ (x * 128) % 2 ^ (8 * 1)) pre suf
      (Int.emod_nonneg _ (by norm_num)) (Int.emod_lt_of_pos _ (by norm_num))]
    have hsw := signed_wrap (truncQ (x * 128)) 128 (by norm_num) (by omega) (by omega)
    norm_num at hsw ⊢
    rw [hsw]
    have hrw : (truncQ (x * 128) : ℚ) / 128 - x = ((truncQ (x * 128) : ℚ) - x * 128) / 128 := by
      ring
    rw [hrw, abs_div]
    rw [show |(128 : ℚ)| = 128 from by norm_num]
    rw [div_le_div_iff (by norm_num) (by norm_num)]
    have herr2 : |(truncQ (x * 128) : ℚ) - x * 128| < 1 := by
      rwa [abs_sub_comm] at herr
    nlinarith [herr2]
  | SHORT =>
    have hnorm : norm = true := by
      rcases hn with h | h
      · cases h
      · exact h
    subst hnorm
    obtain ⟨hlo, hhi⟩ := hv
    have hb := truncQ_bounds (x * 32768) (-32768) 32767 (by push_cast; linarith)
      (by push_cast; linarith)
    have herr := truncQ_err (x * 32768)
    simp only [decodeComp, slotCells, convSlot, scaleEnc, _get_component_type_size, if_true,
      errBound]
    rw [readUInt_intLE 2 (truncQ (x * 32768) % 2 ^ (8 * 2)) pre suf
      (Int.emod_nonneg _ (by norm_num)) (Int.emod_lt_of_pos _ (by norm_num))]
    have hsw := signed_wrap (truncQ (x * 32768)) 32768 (by norm_num) (by omega) (by omega)
    norm_num at hsw ⊢
    rw [hsw]
    have hrw : (truncQ (x * 32768) : ℚ) / 32768 - x =
        ((truncQ (x * 32768) : ℚ) - x * 32768) / 32768 := by
      ring
    rw [hrw, abs_div]
    rw [show |(32768 : ℚ)| = 32768 from by norm_num]
    rw [div_le_div_iff (by norm_num) (by norm_num)]
    have herr2 : |(truncQ (x * 32768) : ℚ) - x * 32768| < 1 := by
      rwa [abs_sub_comm] at herr
    nlinarith [herr2]
  | UNSIGNED_BYTE =>
    have hnorm : norm = true := by
      rcases hn with h | h
      · cases h
      · exact h
    subst hnorm
    obtain ⟨hlo, hhi⟩ := hv
    have hb := truncQ_bounds (x * 255) 0 255 (by push_cast; linarith) (by push_cast; linarith)
    have herr := truncQ_err (x * 255)
    simp only [decodeComp, slotCells, convSlot, scaleEnc, _get_component_type_size, if_true,
      errBound]
    rw [readUInt_intLE 1 (truncQ (x * 255) % 2 ^ (8 * 1)) pre suf
      (Int.emod_nonneg _ (by norm_num)) (Int.emod_lt_of_pos _ (by norm_num))]
    have hmod : truncQ (x * 255) % 2 ^ (8 * 1) = truncQ (x * 255) :=
      Int.emod_eq_of_lt (by omega) (by norm_num; omega)
    rw [hmod]
    have hrw : (truncQ (x * 255) : ℚ) / 255 - x = ((truncQ (x * 255) : ℚ) - x * 255) / 255 := by
      ring
    rw [hrw, abs_div]
    rw [show |(255 : ℚ)| = 255 from by norm_num]
    rw [div_le_div_iff (by norm_num) (by norm_num)]
    have herr2 : |(truncQ (x * 255) : ℚ) - x * 255| < 1 := by
      rwa [abs_sub_comm] at herr
    nlinarith [herr2]
  | UNSIGNED_SHORT =>
    have hnorm : norm = true := by
      rcases hn with h | h
      · cases h
      · exact h
    subst hnorm
    obtain ⟨hlo, hhi⟩ := hv
    have hb := truncQ_bounds (x * 65535) 0 65535 (by push_cast; linarith) (by push_cast; linarith)
    have herr := truncQ_err (x * 65535)
    simp only [decodeComp, slotCells, convSlot, scaleEnc, _get_component_type_size, if_true,
      errBound]
    rw [readUInt_intLE 2 (truncQ (x * 65535) % 2 ^ (8 * 2)) pre suf
      (Int.emod_nonneg _ (by norm_num)) (Int.emod_lt_of_pos _ (by norm_num))]
    have hmod : truncQ (x * 65535) % 2 ^ (8 * 2) = truncQ (x * 65535) :=
      Int.emod_eq_of_lt (by omega) (by norm_num; omega)
    rw [hmod]
    have hrw : (truncQ (x * 65535) : ℚ) / 65535 - x =
        ((truncQ (x * 65535) : ℚ) - x * 65535) / 65535 := by
      ring
    rw [hrw, abs_div]
    rw [show |(65535 : ℚ)| = 65535 from by norm_num]
    rw [div_le_div_iff (by norm_num) (by norm_num)]
    have herr2 : |(truncQ (x * 65535) : ℚ) - x * 65535| < 1 := by
      rwa [abs_sub_comm] at herr
    nlinarith [herr2]

/-- One-component round trip for the modelled float lane. -/
theorem compRT_float (norm : Bool) (x : ℚ) (pre suf : List ℚ) :
    decodeComp CompType.FLOAT norm (pre ++ [x, 0, 0, 0] ++ suf) pre.length = x := by
  simp only [decodeComp]
  rw [List.append_assoc]
  have := atD_append_right pre ([x, 0, 0, 0] ++ suf) 0 0
  simpa using this

theorem setAt_append {α : Type} (pre t : List α) (b x : α) :
    setAt (pre ++ b :: t) pre.length x = some (pre ++ x :: t) := by
  induction pre with
  | nil => rfl
  | cons a p ih => simp [setAt, ih]

theorem intLE_length (k : ℕ) (v : ℤ) : (intLE k v).length = k := by
  induction k generalizing v with
  | zero => rfl
  | succ k ih => simp [intLE, ih]

theorem atD_range (n q : ℕ) (hq : q < n) (d : ℕ) : atD (List.range n) q d = q := by
  induction n generalizing q with
  | zero => omega
  | succ n ih =>
    rcases Nat.lt_or_ge q n with h | h
    · rw [List.range_succ, atD_append_left _ _ _ (by simpa using h), ih q h]
    · have hq' : q = n := by omega
      subst hq'
      rw [List.range_succ]
      have := atD_append_right (List.range q) [q] 0 d
      simpa using this

theorem encElem_seq {α : Type} (conv : ℚ → α) :
    ∀ (rem j : ℕ) (vals rest : List ℚ) (pre mid suf : List α),
      vals.length = rem → mid.length = rem →
      encElem conv 0 0 j rem (vals ++ rest) pre.length (pre ++ mid ++ suf) =
        some (pre ++ vals.map conv ++ suf, pre.length + rem, rest) := by
  intro rem
  induction rem with
  | zero =>
    intro j vals rest pre mid suf hv hm
    rw [List.length_eq_zero.mp hv, List.length_eq_zero.mp hm]
    simp [encElem]
  | succ rem ih =>
    intro j vals rest pre mid suf hv hm
    cases vals with
    | nil => simp at hv
    | cons v vs =>
      cases mid with
      | nil => simp at hm
      | cons m ms =>
        simp only [encElem, List.cons_append]
        rw [if_neg (by simp)]
        have hset : setAt (pre ++ m :: (ms ++ suf)) pre.length (conv v) =
            some (pre ++ conv v :: (ms ++ suf)) :=
          setAt_append pre (ms ++ suf) m (conv v)
        rw [show pre ++ (m :: ms) ++ suf = pre ++ m :: (ms ++ suf) from by simp] at *
        rw [hset]
        show encElem conv 0 0 (j + 1) rem (vs ++ rest) (pre.length + 1)
            (pre ++ conv v :: (ms ++ suf)) =
          some (pre ++ (v :: vs).map conv ++ suf, pre.length + (rem + 1), rest)
        have hih := ih (j + 1) vs rest (pre ++ [conv v]) ms suf (by simpa using hv)
          (by simpa using hm)
        simp only [List.append_assoc, List.singleton_append, List.length_append,
          List.length_cons, List.length_nil, Nat.zero_add, Nat.add_zero, List.map_cons] at hih ⊢
        rw [show pre.length + (rem + 1) = pre.length + 1 + rem from by omega]
        exact hih

theorem encAll_seq {α : Type} (conv : ℚ → α) (cc : ℕ) :
    ∀ (count : ℕ) (vals rest : List ℚ) (pre mid suf : List α),
      vals.length = count * cc → mid.length = count * cc →
      encAll conv 0 0 cc count (vals ++ rest) pre.length (pre ++ mid ++ suf) =
        some (pre ++ vals.map conv ++ suf, pre.length + count * cc, rest) := by
  intro count
  induction count with
  | zero =>
    intro vals rest pre mid suf hv hm
    simp only [Nat.zero_mul] at hv hm
    rw [List.length_eq_zero.mp hv, List.length_eq_zero.mp hm]
    simp [encAll]
  | succ count ih =>
    intro vals rest pre mid suf hv hm
    have hcc : cc ≤ vals.length := by
      rw [hv, Nat.succ_mul]
      omega
    have hccm : cc ≤ mid.length := by
      rw [hm, Nat.succ_mul]
      omega
    simp only [encAll]
    have hv1 : (vals.take cc).length = cc := by
      rw [List.length_take]
      omega
    have hm1 : (mid.take cc).length = cc := by
      rw [List.length_take]
      omega
    have hsplitv : vals ++ rest = vals.take cc ++ (vals.drop cc ++ rest) := by
      conv_lhs => rw [← List.take_append_drop cc vals]
      rw [List.append_assoc]
    have hsplitm : pre ++ mid ++ suf = pre ++ mid.take cc ++ (mid.drop cc ++ suf) := by
      conv_lhs => rw [← List.take_append_drop cc mid]
      simp only [List.append_assoc]
    rw [hsplitv, hsplitm,
      encElem_seq conv cc 0 (vals.take cc) (vals.drop cc ++ rest) pre (mid.take cc)
        (mid.drop cc ++ suf) hv1 hm1]
    show encAll conv 0 0 cc count (vals.drop cc ++ rest) (pre.length + cc)
        (pre ++ (vals.take cc).map conv ++ (mid.drop cc ++ suf)) =
      some (pre ++ vals.map conv ++ suf, pre.length + (count + 1) * cc, rest)
    rw [show pre ++ (vals.take cc).map conv ++ (mid.drop cc ++ suf) =
        pre ++ (vals.take cc).map conv ++ mid.drop cc ++ suf from by
      simp only [List.append_assoc]]
    rw [show pre.length + cc = (pre ++ (vals.take cc).map conv).length from by
      simp only [List.length_append, List.length_map, hv1]]
    rw [ih (vals.drop cc) rest (pre ++ (vals.take cc).map conv) (mid.drop cc) suf
      (by rw [List.length_drop, hv, Nat.succ_mul]; omega)
      (by rw [List.length_drop, hm, Nat.succ_mul]; omega)]
    have hmapsplit : (pre ++ (vals.take cc).map conv) ++ (vals.drop cc).map conv =
        pre ++ vals.map conv := by
      rw [List.append_assoc, ← List.map_append, List.take_append_drop]
    have harith : (pre ++ (vals.take cc).map conv).length + count * cc =
        pre.length + (count + 1) * cc := by
      simp only [List.length_append, List.length_map, hv1]
      ring
    rw [hmapsplit, harith]

theorem readElem_noskip (buf : List ℚ) (cs : ℕ) (ct : CompType) (norm : Bool) :
    ∀ (rem j src : ℕ),
      readElem buf 0 0 cs ct norm j rem src =
        (List.range rem).map (fun t => decodeComp ct norm buf (src + t * cs)) := by
  intro rem
  induction rem with
  | zero => intro j src; rfl
  | succ rem ih =>
    intro j src
    simp only [readElem]
    rw [if_neg (by simp)]
    rw [ih (j + 1) (src + cs)]
    rw [List.range_succ_eq_map]
    simp only [List.map_cons, Nat.zero_mul, Nat.add_zero, List.map_map]
    congr 1
    apply List.map_congr_left
    intro t _
    simp only [Function.comp_apply]
    congr 1
    rw [Nat.succ_eq_add_one]
    ring

theorem atD_lcat {α : Type} (f : α → List ℚ) (w : ℕ) (l : List α)
    (hf : ∀ x ∈ l, (f x).length = w) (q r : ℕ) (hq : q < l.length) (hr : r < w)
    (d : ℚ) (dA : α) :
    atD (lcat f l) (q * w + r) d = atD (f (atD l q dA)) r d := by
  induction l generalizing q with
  | nil => simp at hq
  | cons a t ih =>
    cases q with
    | zero =>
      simp only [Nat.zero_mul, Nat.zero_add, lcat, atD]
      exact atD_append_left _ _ _ (by rw [hf a (List.mem_cons_self a t)]; exact hr) d
    | succ q =>
      simp only [lcat, atD]
      have harith : (q + 1) * w + r = (f a).length + (q * w + r) := by
        rw [hf a (List.mem_cons_self a t)]
        ring
      rw [harith, atD_append_right]
      exact ih (fun x hx => hf x (List.mem_cons_of_mem a hx)) q (by simpa using hq)

/-- Decode side of the round trip: over a fresh dense view whose cells
are the per-component stores of the source values, the decode succeeds
and each decoded component approximates its source value within the
component bound. -/
theorem decode_roundtrip_side {α : Type} (st1 : FBXState) (bvi : ℕ) (buf0 : List ℚ)
    (g : ℚ → α) (f : α → List ℚ) (src : List ℚ) (p_count cc cs : ℕ)
    (ct : CompType) (norm : Bool) (fv : Bool)
    (hbv : atD (st1.buffer_views.map Option.some) bvi none =
      some { buffer := 0, byte_offset := buf0.length, byte_length := p_count * cc * cs,
             byte_stride := none })
    (hbuf : atD (st1.buffers.map Option.some) 0 none = some (buf0 ++ lcat f (src.map g)))
    (hsrc : src.length = p_count * cc)
    (hw : ∀ y ∈ src.map g, (f y).length = cs)
    (hcc1 : 1 ≤ cc)
    (hfv4 : fv = true → (cc * cs) % 4 = 0)
    (hcomp : ∀ (x : ℚ) (pre suf : List ℚ), x ∈ src →
      |decodeComp ct norm (pre ++ f (g x) ++ suf) pre.length - x| ≤ errBound ct) :
    ∃ ys, _decode_buffer_view st1 bvi 0 0 (cc * cs) p_count cc ct cs norm 0 fv = some ys ∧
      ys.length = src.length ∧
      ∀ k, k < src.length → |atD ys k 0 - atD src k 0| ≤ errBound ct := by
  have hcells : (lcat f (src.map g)).length = p_count * cc * cs := by
    rw [lcat_length f cs (src.map g) hw, List.length_map, hsrc]
  have hstr : decodeStride
      { buffer := 0, byte_offset := buf0.length, byte_length := p_count * cc * cs,
        byte_stride := none } (cc * cs) fv = cc * cs := by
    unfold decodeStride
    cases fv with
    | false => simp
    | true =>
      have := hfv4 rfl
      simp [this]
  have hspan : decodeSpan
      { buffer := 0, byte_offset := buf0.length, byte_length := p_count * cc * cs,
        byte_stride := none } (cc * cs) p_count fv = ((p_count * cc * cs : ℕ) : ℤ) := by
    unfold decodeSpan
    rw [hstr]
    push_cast
    ring
  simp only [_decode_buffer_view, hbv, hbuf]
  rw [hspan]
  rw [if_neg (by omega)]
  rw [if_neg (by
    simp only [List.length_append, hcells]
    push_cast
    omega)]
  rw [hstr]
  refine ⟨_, rfl, ?_, ?_⟩
  · rw [lcat_length _ cc _ (by
      intro y hy
      simp [readElem_noskip]), List.length_range, hsrc]
  · intro k hk
    have hkcc : k < p_count * cc := by omega
    have hq : k / cc < p_count := Nat.div_lt_of_lt_mul (by rw [Nat.mul_comm]; exact hkcc)
    have hr : k % cc < cc := Nat.mod_lt _ (by omega)
    have hk2 : k / cc * cc + k % cc = k := by
      rw [Nat.mul_comm]
      exact Nat.div_add_mod k cc
    have hys : atD (lcat
        (fun i => readElem (buf0 ++ lcat f (src.map g)) 0 0 cs ct norm 0 cc
          (buf0.length + 0 + i * (cc * cs)))
        (List.range p_count)) k 0 =
        decodeComp ct norm (buf0 ++ lcat f (src.map g))
          (buf0.length + 0 + k / cc * (cc * cs) + k % cc * cs) := by
      rw [← hk2]
      rw [atD_lcat _ cc _ (by
        intro y hy
        simp [readElem_noskip]) (k / cc) (k % cc) (by simpa using hq) hr 0 0]
      rw [atD_range p_count (k / cc) hq 0]
      rw [readElem_noskip]
      rw [atD_map _ _ (k % cc) (by simpa using hr) 0 0]
      rw [atD_range cc (k % cc) hr 0]
      rw [hk2]
    rw [hys]
    have hsplit : lcat f (src.map g) =
        lcat f ((src.map g).take k) ++ f (atD (src.map g) k (g 0)) ++
          lcat f ((src.map g).drop (k + 1)) :=
      lcat_split f (src.map g) k (by rw [List.length_map]; omega) (g 0)
    have htk : atD (src.map g) k (g 0) = g (atD src k 0) :=
      atD_map g src k (by omega) (g 0) 0
    have hpre : (buf0 ++ lcat f ((src.map g).take k)).length = buf0.length + k * cs := by
      rw [List.length_append, lcat_length f cs _ (by
        intro y hy
        exact hw y (List.mem_of_mem_take hy))]
      rw [List.length_take, List.length_map]
      congr 2
      omega
    have hbufeq : buf0 ++ lcat f (src.map g) =
        (buf0 ++ lcat f ((src.map g).take k)) ++ f (g (atD src k 0)) ++
          lcat f ((src.map g).drop (k + 1)) := by
      rw [hsplit, htk]
      simp [List.append_assoc]
    have hposeq : buf0.length + 0 + k / cc * (cc * cs) + k % cc * cs =
        (buf0 ++ lcat f ((src.map g).take k)).length := by
      rw [hpre]
      have : k / cc * (cc * cs) + k % cc * cs = k * cs := by
        calc k / cc * (cc * cs) + k % cc * cs = (k / cc * cc + k % cc) * cs := by ring
          _ = k * cs := by rw [hk2]
      omega
    rw [hbufeq, hposeq]
    exact hcomp (atD src k 0) _ _ (atD_mem src k (by omega) 0)

/-- C2 (amended): the encode/decode round trip of _encode_buffer_view and
_decode_buffer_view recovers the source values within the quantization
error of the component type (exactly for int32 and float32), provided the
state has no pre-existing buffer views (the encoder stamps the new view's
buffer field with the view count, so only then does the view name
buffers[0], where the data was appended), the layout has no matrix
alignment padding, the accessor byte offset is zero, a for-vertex layout
has an element size that is a multiple of 4 (otherwise the decode stride
is rounded up to 4 while the encode side wrote densely, and the decode
range check fails), and each source value lies in the range the component
type can represent (narrow types must also be normalized: the
non-normalized narrow encode truncates to the raw integer, which does
not round-trip). -/
theorem C2_roundtrip_amended (st : FBXState) (buf0 : List ℚ) (btail : List (List ℚ))
    (src : List ℚ) (p_count : ℕ) (ty : AccType) (ct : CompType) (norm fv : Bool)
    (hbufs : st.buffers = buf0 :: btail)
    (hviews : st.buffer_views = [])
    (hsrc : src.length = p_count * component_count_for_type ty)
    (hskip : alignSkip ct ty = (0, 0))
    (hfv4 : fv = true → (component_count_for_type ty * _get_component_type_size ct) % 4 = 0)
    (hn : ct = CompType.INT ∨ ct = CompType.FLOAT ∨ norm = true)
    (hvals : ∀ x ∈ src, ValOK ct x) :
    ∃ st' bvi ys,
      _encode_buffer_view st src p_count ty ct norm 0 fv = some (st', bvi) ∧
      _decode_buffer_view st' bvi 0 0
        (component_count_for_type ty * _get_component_type_size ct) p_count
        (component_count_for_type ty) ct (_get_component_type_size ct) norm 0 fv = some ys ∧
      ys.length = src.length ∧
      ∀ k, k < src.length → |atD ys k 0 - atD src k 0| ≤ errBound ct := by
  have hcc1 : 1 ≤ component_count_for_type ty := by
    cases ty <;> simp [component_count_for_type]
  by_cases hF : ct = CompType.FLOAT
  · subst hF
    simp only [_get_component_type_size]
    have henc := encAll_seq (fun d : ℚ => d) (component_count_for_type ty) p_count src
      ([] : List ℚ) ([] : List ℚ)
      (List.replicate (p_count * component_count_for_type ty) (0 : ℚ)) ([] : List ℚ)
      hsrc (by simp)
    simp only [List.append_nil, List.nil_append, List.length_nil, Nat.zero_add] at henc
    have hcl : (lcat (fun v : ℚ => [v, 0, 0, 0]) (src.map (fun d : ℚ => d))).length =
        p_count * component_count_for_type ty * 4 := by
      rw [lcat_length _ 4 _ (by intro y hy; rfl), List.length_map, hsrc]
    have hbound : (((if fv = true ∧ (4 : ℕ) % 4 ≠ 0 then 4 + (4 - (4 : ℕ) % 4) else 4 : ℕ)) : ℤ) *
        ((p_count : ℤ) - 1) + ((4 : ℕ) : ℤ) ≤
        ((p_count * component_count_for_type ty * 4 : ℕ) : ℤ) := by
      rw [if_neg (by norm_num)]
      have hn0 : (0 : ℤ) ≤ (p_count : ℤ) := by positivity
      have hcc1z : (1 : ℤ) ≤ (component_count_for_type ty : ℤ) := by exact_mod_cast hcc1
      push_cast
      nlinarith [mul_nonneg hn0 (sub_nonneg.mpr hcc1z)]
    have hENC : _encode_buffer_view st src p_count ty CompType.FLOAT norm 0 fv =
        some ({ st with
          buffers := (buf0 ++ lcat (fun v : ℚ => [v, 0, 0, 0])
            (src.map (fun d : ℚ => d))) :: btail,
          buffer_views :=
            [{ buffer := 0, byte_offset := buf0.length,
               byte_length := p_count * component_count_for_type ty * 4,
               byte_stride := none }] },
        0) := by
      simp only [_encode_buffer_view, hbufs, hviews, List.map_cons, atD, hskip, henc,
        _get_component_type_size, if_true, List.length_nil, List.nil_append]
      rw [if_neg (not_lt.mpr hbound)]
      rw [if_neg (by
        rw [hcl]
        refine not_lt.mpr ?_
        have hb0 : (0 : ℤ) ≤ (buf0.length : ℤ) := by positivity
        have := hbound
        push_cast at this ⊢
        linarith)]
      simp only [setAt]
    have hDEC := decode_roundtrip_side
      ({ st with
          buffers := (buf0 ++ lcat (fun v : ℚ => [v, 0, 0, 0])
            (src.map (fun d : ℚ => d))) :: btail,
          buffer_views :=
            [{ buffer := 0, byte_offset := buf0.length,
               byte_length := p_count * component_count_for_type ty * 4,
               byte_stride := none }] })
      0 buf0 (fun d : ℚ => d) (fun v : ℚ => [v, 0, 0, 0]) src p_count
      (component_count_for_type ty) 4 CompType.FLOAT norm fv
      rfl
      rfl hsrc
      (by intro y hy; rfl)
      hcc1
      (by intro hfv; omega)
      (by
        intro x pre suf hx
        have h : decodeComp CompType.FLOAT norm
            (pre ++ (fun v : ℚ => [v, 0, 0, 0]) ((fun d : ℚ => d) x) ++ suf) pre.length = x :=
          compRT_float norm x pre suf
        rw [h]
        simp [errBound])
    obtain ⟨ys, hdec, hlen, hpt⟩ := hDEC
    exact ⟨_, _, ys, hENC, hdec, hlen, hpt⟩
  · have hcs148 : _get_component_type_size ct = 1 ∨ _get_component_type_size ct = 2 ∨
        _get_component_type_size ct = 4 := by
      cases ct <;> simp [_get_component_type_size]
    have hcs1 : 1 ≤ _get_component_type_size ct := by
      rcases hcs148 with h | h | h <;> omega
    have henc := encAll_seq (convSlot ct norm) (component_count_for_type ty) p_count src
      ([] : List ℚ) ([] : List ℤ)
      (List.replicate (p_count * component_count_for_type ty) (0 : ℤ)) ([] : List ℤ)
      hsrc (by simp)
    simp only [List.append_nil, List.nil_append, List.length_nil, Nat.zero_add] at henc
    have hcl : (lcat (slotCells ct) (src.map (convSlot ct norm))).length =
        p_count * component_count_for_type ty * _get_component_type_size ct := by
      rw [lcat_length _ (_get_component_type_size ct) _
        (by intro y hy; exact intLE_length _ _), List.length_map, hsrc]
    have hn0 : (0 : ℤ) ≤ (p_count : ℤ) := by positivity
    have hcc1z : (1 : ℤ) ≤ (component_count_for_type ty : ℤ) := by exact_mod_cast hcc1
    have hbound : (((if fv = true ∧ _get_component_type_size ct % 4 ≠ 0 then
        _get_component_type_size ct + (4 - _get_component_type_size ct % 4)
        else _get_component_type_size ct : ℕ)) : ℤ) * ((p_count : ℤ) - 1) +
        ((_get_component_type_size ct : ℕ) : ℤ) ≤
        ((p_count * component_count_for_type ty * _get_component_type_size ct : ℕ) : ℤ) := by
      by_cases hc : fv = true ∧ _get_component_type_size ct % 4 ≠ 0
      · rw [if_pos hc]
        have h4 := hfv4 hc.1
        have hs4 : _get_component_type_size ct +
            (4 - _get_component_type_size ct % 4) = 4 := by
          rcases hcs148 with h | h | h
          · rw [h]
          · rw [h]
          · rw [h] at hc
            exact absurd (by norm_num : (4 : ℕ) % 4 = 0) hc.2
        rw [hs4]
        have hge4 : 4 ≤ component_count_for_type ty * _get_component_type_size ct := by
          rcases hcs148 with h | h | h <;> rw [h] at h4 ⊢ <;> omega
        have hge4z : (4 : ℤ) ≤
            (component_count_for_type ty : ℤ) * (_get_component_type_size ct : ℤ) := by
          exact_mod_cast hge4
        have hcs4 : (_get_component_type_size ct : ℤ) ≤ 4 := by
          rcases hcs148 with h | h | h <;> rw [h] <;> norm_num
        push_cast
        nlinarith [mul_nonneg (sub_nonneg.mpr hge4z) hn0]
      · rw [if_neg hc]
        have hcs0 : (0 : ℤ) ≤ (_get_component_type_size ct : ℤ) := by positivity
        push_cast
        nlinarith [mul_nonneg (mul_nonneg hcs0 hn0) (sub_nonneg.mpr hcc1z)]
    have hENC : _encode_buffer_view st src p_count ty ct norm 0 fv =
        some ({ st with
          buffers := (buf0 ++ lcat (slotCells ct) (src.map (convSlot ct norm))) :: btail,
          buffer_views :=
            [{ buffer := 0, byte_offset := buf0.length,
               byte_length := p_count * component_count_for_type ty *
                 _get_component_type_size ct,
               byte_stride := none }] },
        0) := by
      simp only [_encode_buffer_view, hbufs, hviews, List.map_cons, atD, hskip, henc,
        if_neg hF, List.length_nil, List.nil_append]
      rw [if_neg (not_lt.mpr hbound)]
      rw [if_neg (by
        rw [hcl]
        refine not_lt.mpr ?_
        have hb0 : (0 : ℤ) ≤ (buf0.length : ℤ) := by positivity
        have := hbound
        push_cast at this ⊢
        linarith)]
      simp only [setAt]
    have hDEC := decode_roundtrip_side
      ({ st with
          buffers := (buf0 ++ lcat (slotCells ct) (src.map (convSlot ct norm))) :: btail,
          buffer_views :=
            [{ buffer := 0, byte_offset := buf0.length,
               byte_length := p_count * component_count_for_type ty *
                 _get_component_type_size ct,
               byte_stride := none }] })
      0 buf0 (convSlot ct norm) (slotCells ct) src p_count
      (component_count_for_type ty) (_get_component_type_size ct) ct norm fv
      rfl
      rfl hsrc
      (by intro y hy; exact intLE_length _ _)
      hcc1 hfv4
      (by
        intro x pre suf hx
        refine compRT ct norm x pre suf hF ?_ (hvals x hx)
        rcases hn with h | h | h
        · exact Or.inl h
        · exact absurd h hF
        · exact Or.inr h)
    obtain ⟨ys, hdec, hlen, hpt⟩ := hDEC
    exact ⟨_, _, ys, hENC, hdec, hlen, hpt⟩

theorem C2_roundtrip_amended_witness :
    ∃ st' bvi ys,
      _encode_buffer_view ⟨[], [[]], [], []⟩ [0, 1/2] 2 AccType.SCALAR
        CompType.UNSIGNED_BYTE true 0 false = some (st', bvi) ∧
      _decode_buffer_view st' bvi 0 0
        (component_count_for_type AccType.SCALAR *
          _get_component_type_size CompType.UNSIGNED_BYTE) 2
        (component_count_for_type AccType.SCALAR) CompType.UNSIGNED_BYTE
        (_get_component_type_size CompType.UNSIGNED_BYTE) true 0 false = some ys ∧
      ys.length = ([0, 1/2] : List ℚ).length ∧
      ∀ k, k < ([0, 1/2] : List ℚ).length →
        |atD ys k 0 - atD ([0, 1/2] : List ℚ) k 0| ≤ errBound CompType.UNSIGNED_BYTE :=
  C2_roundtrip_amended ⟨[], [[]], [], []⟩ [] [] [0, 1/2] 2 AccType.SCALAR
    CompType.UNSIGNED_BYTE true false rfl rfl rfl rfl (by simp)
    (Or.inr (Or.inr rfl))
    (by
      intro x hx
      simp only [List.mem_cons, List.not_mem_nil, or_false] at hx
      rcases hx with rfl | rfl <;> norm_num [ValOK])

/-! ## Claim C1: expansion and verification of multirooted skins -/

/-- A node t is a top of the node set S: its parent, if any, lies
outside S, so the in-set climb of setTop stops at t. -/
def NodeTop (st : FBXState) (S : List ℕ) (t : ℕ) : Prop :=
  match parentOf st t with
  | none => True
  | some p => p ∉ S

/-- y lies on the in-set parent climb path from x: y is reachable from
x by parent steps whose targets stay in S. -/
inductive ChainIn (st : FBXState) (S : List ℕ) : ℕ → ℕ → Prop
  | refl (x : ℕ) : ChainIn st S x x
  | step (x p y : ℕ) (hp : parentOf st x = some p) (hm : p ∈ S)
      (h : ChainIn st S p y) : ChainIn st S x y

theorem chain_trans {st : FBXState} {S : List ℕ} {x y z : ℕ}
    (h1 : ChainIn st S x y) (h2 : ChainIn st S y z) : ChainIn st S x z := by
  induction h1 with
  | refl => exact h2
  | step a p b hp hm h ih => exact ChainIn.step a p z hp hm (ih h2)

theorem chain_mono {st : FBXState} {S S' : List ℕ} {x y : ℕ}
    (hS : ∀ a, a ∈ S → a ∈ S') (h : ChainIn st S x y) : ChainIn st S' x y := by
  induction h with
  | refl => exact ChainIn.refl _
  | step a p b hp hm h ih => exact ChainIn.step a p b hp (hS p hm) ih

theorem parent_height {st : FBXState} (hWF : WFState st) {x p : ℕ}
    (hx : x < st.nodes.length) (hp : parentOf st x = some p) :
    p < st.nodes.length ∧ heightOf st x = heightOf st p + 1 := by
  have h := (hWF x hx).1
  unfold parentHeightOK at h
  rw [hp] at h
  exact h

theorem parent_none_height {st : FBXState} (hWF : WFState st) {x : ℕ}
    (hx : x < st.nodes.length) (hp : parentOf st x = none) :
    heightOf st x = 0 := by
  have h := (hWF x hx).1
  unfold parentHeightOK at h
  rw [hp] at h
  exact h

theorem height_pos_parent {st : FBXState} (hWF : WFState st) {x : ℕ}
    (hx : x < st.nodes.length) (hh : 0 < heightOf st x) :
    ∃ p, parentOf st x = some p := by
  cases hp : parentOf st x with
  | none => exact absurd (parent_none_height hWF hx hp) (by omega)
  | some p => exact ⟨p, rfl⟩

theorem chain_range {st : FBXState} {S : List ℕ} {x y : ℕ} (hWF : WFState st)
    (h : ChainIn st S x y) (hx : x < st.nodes.length) : y < st.nodes.length := by
  induction h with
  | refl => exact hx
  | step a p b hp hm h ih => exact ih (parent_height hWF hx hp).1

theorem chain_height {st : FBXState} {S : List ℕ} {x y : ℕ} (hWF : WFState st)
    (h : ChainIn st S x y) (hx : x < st.nodes.length) :
    y = x ∨ heightOf st y < heightOf st x := by
  induction h with
  | refl => exact Or.inl rfl
  | step a p b hp hm h ih =>
    have hph := parent_height hWF hx hp
    rcases ih hph.1 with rfl | hlt
    · exact Or.inr (by omega)
    · exact Or.inr (by omega)

theorem chain_top {st : FBXState} {S : List ℕ} {x y : ℕ}
    (ht : NodeTop st S x) (h : ChainIn st S x y) : y = x := by
  cases h with
  | refl => rfl
  | step a p b hp hm h =>
    unfold NodeTop at ht
    rw [hp] at ht
    exact absurd hm ht

theorem chain_mem {st : FBXState} {S : List ℕ} {x y : ℕ}
    (h : ChainIn st S x y) : y = x ∨ y ∈ S := by
  induction h with
  | refl => exact Or.inl rfl
  | step a p b hp hm h ih =>
    rcases ih with rfl | hmem
    · exact Or.inr hm
    · exact Or.inr hmem

theorem setTopF_chain (st : FBXState) (S : List ℕ) :
    ∀ (fuel x : ℕ), ChainIn st S x (setTopF st S fuel x) := by
  intro fuel
  induction fuel with
  | zero => intro x; exact ChainIn.refl x
  | succ f ih =>
    intro x
    cases hp : parentOf st x with
    | none =>
      simp only [setTopF, hp]
      exact ChainIn.refl x
    | some p =>
      simp only [setTopF, hp]
      by_cases hm : p ∈ S
      · rw [if_pos hm]
        exact ChainIn.step x p _ hp hm (ih p)
      · rw [if_neg hm]
        exact ChainIn.refl x

theorem setTopF_stab {st : FBXState} (hWF : WFState st) (S : List ℕ) :
    ∀ (f1 : ℕ) (f2 x : ℕ), x < st.nodes.length →
      heightOf st x < f1 → heightOf st x < f2 →
      setTopF st S f1 x = setTopF st S f2 x := by
  intro f1
  induction f1 with
  | zero => intro f2 x _ h1 _; omega
  | succ a ih =>
    intro f2 x hx h1 h2
    cases f2 with
    | zero => omega
    | succ b =>
      cases hp : parentOf st x with
      | none => simp only [setTopF, hp]
      | some p =>
        simp only [setTopF, hp]
        by_cases hm : p ∈ S
        · rw [if_pos hm, if_pos hm]
          have hph := parent_height hWF hx hp
          exact ih b p hph.1 (by omega) (by omega)
        · rw [if_neg hm, if_neg hm]

theorem setTopF_of_top {st : FBXState} {S : List ℕ} {t : ℕ}
    (ht : NodeTop st S t) : ∀ fuel, setTopF st S fuel t = t := by
  intro fuel
  cases fuel with
  | zero => rfl
  | succ f =>
    cases hp : parentOf st t with
    | none => simp only [setTopF, hp]
    | some p =>
      simp only [setTopF, hp]
      unfold NodeTop at ht
      rw [hp] at ht
      rw [if_neg ht]

theorem setTopF_top {st : FBXState} (hWF : WFState st) (S : List ℕ) :
    ∀ (fuel x : ℕ), x < st.nodes.length → heightOf st x < fuel →
      NodeTop st S (setTopF st S fuel x) := by
  intro fuel
  induction fuel with
  | zero => intro x _ h; omega
  | succ a ih =>
    intro x hx hh
    cases hp : parentOf st x with
    | none =>
      simp only [setTopF, hp]
      unfold NodeTop
      rw [hp]
      trivial
    | some p =>
      simp only [setTopF, hp]
      by_cases hm : p ∈ S
      · rw [if_pos hm]
        have hph := parent_height hWF hx hp
        exact ih p hph.1 (by omega)
      · rw [if_neg hm]
        unfold NodeTop
        rw [hp]
        exact hm

theorem setTop_isTop {st : FBXState} (hWF : WFState st) (S : List ℕ) {x : ℕ}
    (hx : x < st.nodes.length) : NodeTop st S (setTop st S x) :=
  setTopF_top hWF S st.nodes.length x hx (hWF x hx).2.1

theorem setTop_of_top {st : FBXState} {S : List ℕ} {t : ℕ}
    (ht : NodeTop st S t) : setTop st S t = t :=
  setTopF_of_top ht st.nodes.length

theorem chain_setTop {st : FBXState} (hWF : WFState st) {S : List ℕ} {x y : ℕ}
    (hx : x < st.nodes.length) (h : ChainIn st S x y) :
    setTop st S x = setTop st S y := by
  induction h with
  | refl => rfl
  | step a p b hp hm h ih =>
    have hph := parent_height hWF hx hp
    have hih := ih hph.1
    rw [← hih]
    unfold setTop
    cases hn : st.nodes.length with
    | zero => omega
    | succ m =>
      have hha : heightOf st a < m + 1 := by rw [← hn]; exact (hWF a hx).2.1
      have hhp : heightOf st p < m + 1 := by rw [← hn]; exact (hWF p (by omega)).2.1
      simp only [setTopF, hp]
      rw [if_pos hm]
      exact setTopF_stab hWF S m (m + 1) p (by omega) (by omega) (by omega)

theorem setTopF_congr {st : FBXState} {S S' : List ℕ}
    (h : ∀ a, a ∈ S ↔ a ∈ S') :
    ∀ (fuel x : ℕ), setTopF st S fuel x = setTopF st S' fuel x := by
  intro fuel
  induction fuel with
  | zero => intro x; rfl
  | succ f ih =>
    intro x
    cases hp : parentOf st x with
    | none => simp only [setTopF, hp]
    | some p =>
      simp only [setTopF, hp]
      by_cases hm : p ∈ S
      · rw [if_pos hm, if_pos ((h p).mp hm)]
        exact ih p
      · rw [if_neg hm, if_neg (fun hc => hm ((h p).mpr hc))]

theorem setTop_congr {st : FBXState} {S S' : List ℕ}
    (h : ∀ a, a ∈ S ↔ a ∈ S') (x : ℕ) : setTop st S x = setTop st S' x :=
  setTopF_congr h st.nodes.length x

theorem isTop_congr {st : FBXState} {S S' : List ℕ}
    (h : ∀ a, a ∈ S ↔ a ∈ S') (t : ℕ) : NodeTop st S t ↔ NodeTop st S' t := by
  unfold NodeTop
  cases parentOf st t with
  | none => exact Iff.rfl
  | some p => simp [h p]

theorem fh_aux (st : FBXState) (t : ℕ) :
    ∀ (l : List ℕ) (b : ℕ),
      (b = t ∨ heightOf st t < heightOf st b) →
      (b = t ∨ t ∈ l) →
      (∀ y ∈ l, y = t ∨ heightOf st t < heightOf st y) →
      l.foldl
        (fun best node_i =>
          match best with
          | none => some node_i
          | some b => if heightOf st node_i < heightOf st b then some node_i else some b)
        (some b) = some t := by
  intro l
  induction l with
  | nil =>
    intro b h1 h2 _
    rcases h2 with rfl | h2
    · rfl
    · simp at h2
  | cons a l' ih =>
    intro b h1 h2 h3
    simp only [List.foldl_cons]
    show l'.foldl _ (if heightOf st a < heightOf st b then some a else some b) = some t
    by_cases hab : heightOf st a < heightOf st b
    · rw [if_pos hab]
      rcases h3 a (List.mem_cons_self a l') with rfl | hta
      · exact ih a (Or.inl rfl) (Or.inl rfl) (fun y hy => h3 y (List.mem_cons_of_mem a hy))
      · refine ih a (Or.inr hta) (Or.inr ?_) (fun y hy => h3 y (List.mem_cons_of_mem a hy))
        rcases h2 with rfl | h2
        · omega
        · rcases List.mem_cons.mp h2 with rfl | h2
          · omega
          · exact h2
    · rw [if_neg hab]
      refine ih b h1 ?_ (fun y hy => h3 y (List.mem_cons_of_mem a hy))
      rcases h2 with rfl | h2
      · exact Or.inl rfl
      · rcases List.mem_cons.mp h2 with rfl | h2
        · rcases h1 with rfl | h1
          · exact Or.inl rfl
          · omega
        · exact Or.inr h2

theorem find_highest_strict (st : FBXState) (l : List ℕ) (t : ℕ)
    (htl : t ∈ l) (hstrict : ∀ y ∈ l, y = t ∨ heightOf st t < heightOf st y) :
    _find_highest_node st l = some t := by
  cases l with
  | nil => simp at htl
  | cons a rest =>
    unfold _find_highest_node
    simp only [List.foldl_cons]
    show rest.foldl _ (some a) = some t
    rcases hstrict a (List.mem_cons_self a rest) with rfl | hta
    · exact fh_aux st a rest a (Or.inl rfl) (Or.inl rfl)
        (fun y hy => hstrict y (List.mem_cons_of_mem a hy))
    · refine fh_aux st t rest a (Or.inr hta) (Or.inr ?_)
        (fun y hy => hstrict y (List.mem_cons_of_mem a hy))
      rcases List.mem_cons.mp htl with rfl | h
      · omega
      · exact h

theorem owners_spec {st : FBXState} (hWF : WFState st) {all : List ℕ}
    (hr : ∀ x ∈ all, x < st.nodes.length) {o : ℕ}
    (ho : o ∈ (all.map (setTop st all)).dedup) :
    o ∈ all ∧ setTop st all o = o ∧ NodeTop st all o ∧ o < st.nodes.length := by
  rw [List.mem_dedup] at ho
  obtain ⟨x, hx, hxo⟩ := List.mem_map.mp ho
  have hxn := hr x hx
  have hchain : ChainIn st all x o := by
    rw [← hxo]
    exact setTopF_chain st all st.nodes.length x
  have htop : NodeTop st all o := by
    rw [← hxo]
    exact setTop_isTop hWF all hxn
  refine ⟨?_, setTop_of_top htop, htop, chain_range hWF hchain hxn⟩
  rcases chain_mem hchain with rfl | hmem
  · exact hx
  · exact hmem

theorem members_spec {st : FBXState} (hWF : WFState st) {all : List ℕ}
    (hr : ∀ x ∈ all, x < st.nodes.length) {o : ℕ}
    (ho : o ∈ (all.map (setTop st all)).dedup) :
    o ∈ get_members st all o ∧
      ∀ y ∈ get_members st all o, y = o ∨ heightOf st o < heightOf st y := by
  obtain ⟨hoall, hoo, htop, hon⟩ := owners_spec hWF hr ho
  constructor
  · unfold get_members
    rw [List.mem_filter]
    exact ⟨List.mem_dedup.mpr hoall, by simpa using hoo⟩
  · intro y hy
    unfold get_members at hy
    rw [List.mem_filter] at hy
    have hyall : y ∈ all := List.mem_dedup.mp hy.1
    have hyo : setTop st all y = o := by simpa using hy.2
    have hchain : ChainIn st all y o := by
      rw [← hyo]
      exact setTopF_chain st all st.nodes.length y
    rcases chain_height hWF hchain (hr y hyall) with h | h
    · exact Or.inl h.symm
    · exact Or.inr h

theorem rootsOfNodeSets_eq {st : FBXState} (hWF : WFState st) (all : List ℕ)
    (hr : ∀ x ∈ all, x < st.nodes.length) :
    rootsOfNodeSets st all = some (isort ((all.map (setTop st all)).dedup)) := by
  unfold rootsOfNodeSets
  have h := optMapList_id (fun o => _find_highest_node st (get_members st all o))
    ((all.map (setTop st all)).dedup) (fun o ho => by
      obtain ⟨hmem, hmin⟩ := members_spec hWF hr ho
      exact find_highest_strict st _ o hmem hmin)
  simp only [h]

theorem joints_subset {sk : FBXSkin} {x : ℕ} (h : x ∈ sk.joints) :
    x ∈ skin_all_nodes sk := by
  unfold skin_all_nodes
  exact List.mem_append_left _ h

theorem addJointOrNon_mem (st : FBXState) (sk : FBXSkin) (p x : ℕ) :
    x ∈ skin_all_nodes (addJointOrNon st sk p) ↔ x ∈ skin_all_nodes sk ∨ x = p := by
  unfold addJointOrNon skin_all_nodes
  split_ifs with h1 h2
  · simp only [List.mem_append, List.mem_singleton]
    tauto
  · simp only [List.mem_append, List.mem_singleton]
    tauto
  · have hp : p ∈ sk.non_joints := (vfind_nonneg_iff _ _).mp (by omega)
    simp only [List.mem_append]
    constructor
    · intro h
      exact Or.inl h
    · intro h
      rcases h with h | rfl
      · exact h
      · exact Or.inr hp

theorem climbToLevel_spec {st : FBXState} (hWF : WFState st) (m : ℕ) :
    ∀ (fuel cur : ℕ) (sk : FBXSkin),
      cur < st.nodes.length → m ≤ heightOf st cur → heightOf st cur ≤ m + fuel →
      (climbToLevel st m fuel sk cur).2 < st.nodes.length ∧
      heightOf st (climbToLevel st m fuel sk cur).2 = m ∧
      (∀ x, x ∈ skin_all_nodes sk → x ∈ skin_all_nodes (climbToLevel st m fuel sk cur).1) ∧
      ChainIn st (skin_all_nodes (climbToLevel st m fuel sk cur).1) cur
        (climbToLevel st m fuel sk cur).2 ∧
      ((climbToLevel st m fuel sk cur).2 = cur ∨
        (climbToLevel st m fuel sk cur).2 ∈ skin_all_nodes (climbToLevel st m fuel sk cur).1) ∧
      (∀ x, x ∈ skin_all_nodes (climbToLevel st m fuel sk cur).1 →
        x ∈ skin_all_nodes sk ∨
          (x < st.nodes.length ∧
           ChainIn st (skin_all_nodes (climbToLevel st m fuel sk cur).1) x
             (climbToLevel st m fuel sk cur).2)) := by
  intro fuel
  induction fuel with
  | zero =>
    intro cur sk hc hm1 hm2
    simp only [climbToLevel]
    have hcm : heightOf st cur = m := by omega
    exact ⟨hc, hcm, fun x hx => hx, ChainIn.refl cur, Or.inl (by trivial), fun x hx => Or.inl hx⟩
  | succ f ih =>
    intro cur sk hc hm1 hm2
    by_cases hgt : heightOf st cur > m
    · have hpos : 0 < heightOf st cur := by omega
      obtain ⟨p, hp⟩ := height_pos_parent hWF hc hpos
      have hph := parent_height hWF hc hp
      simp only [climbToLevel, if_pos hgt, hp]
      have hrec := ih p (addJointOrNon st sk p) hph.1 (by omega) (by omega)
      obtain ⟨h1, h2, h3, h4, h5, h6⟩ := hrec
      have hpS : p ∈ skin_all_nodes (climbToLevel st m f (addJointOrNon st sk p) p).1 :=
        h3 p ((addJointOrNon_mem st sk p p).mpr (Or.inr rfl))
      refine ⟨h1, h2, ?_, ?_, ?_, ?_⟩
      · intro x hx
        exact h3 x ((addJointOrNon_mem st sk p x).mpr (Or.inl hx))
      · exact ChainIn.step cur p _ hp hpS h4
      · right
        rcases h5 with h5 | h5
        · rw [h5]
          exact hpS
        · exact h5
      · intro x hx
        rcases h6 x hx with hxs | hxc
        · rcases (addJointOrNon_mem st sk p x).mp hxs with hxs' | hxp
          · exact Or.inl hxs'
          · subst hxp
            exact Or.inr ⟨hph.1, h4⟩
        · exact Or.inr hxc
    · simp only [climbToLevel, if_neg hgt]
      have hcm : heightOf st cur = m := by omega
      exact ⟨hc, hcm, fun x hx => hx, ChainIn.refl cur, Or.inl (by trivial), fun x hx => Or.inl hx⟩

/-- One step of the leveling fold of levelRoots (definitionally the
lambda of levelRoots). -/
def levelStep (st : FBXState) (m : ℕ) (acc : FBXSkin × List ℕ) (r : ℕ) :
    FBXSkin × List ℕ :=
  let sr := climbToLevel st m st.nodes.length acc.1 r
  (sr.1, acc.2 ++ [sr.2])

theorem levelRoots_eq_fold (st : FBXState) (m : ℕ) (reps : List ℕ) (sk : FBXSkin) :
    levelRoots st m reps sk = reps.foldl (levelStep st m) (sk, []) := rfl

theorem levelRoots_aux {st : FBXState} (hWF : WFState st) (m : ℕ) :
    ∀ (reps : List ℕ) (sk0 : FBXSkin) (rs0 : List ℕ),
      (∀ r ∈ reps, r < st.nodes.length ∧ m ≤ heightOf st r ∧
        heightOf st r ≤ m + st.nodes.length ∧ r ∈ skin_all_nodes sk0) →
      (∀ x, x ∈ skin_all_nodes sk0 →
        x ∈ skin_all_nodes (reps.foldl (levelStep st m) (sk0, rs0)).1) ∧
      ∃ rsn,
        (reps.foldl (levelStep st m) (sk0, rs0)).2 = rs0 ++ rsn ∧
        rsn.length = reps.length ∧
        (∀ R ∈ rsn, R < st.nodes.length ∧ heightOf st R = m ∧
          R ∈ skin_all_nodes (reps.foldl (levelStep st m) (sk0, rs0)).1) ∧
        (∀ r ∈ reps, ∃ R ∈ rsn,
          ChainIn st (skin_all_nodes (reps.foldl (levelStep st m) (sk0, rs0)).1) r R) ∧
        (∀ x, x ∈ skin_all_nodes (reps.foldl (levelStep st m) (sk0, rs0)).1 →
          x ∈ skin_all_nodes sk0 ∨
            (x < st.nodes.length ∧ ∃ R ∈ rsn,
              ChainIn st (skin_all_nodes (reps.foldl (levelStep st m) (sk0, rs0)).1) x R)) := by
  intro reps
  induction reps with
  | nil =>
    intro sk0 rs0 _
    refine ⟨fun x hx => hx, [], by simp, rfl, ?_, ?_, ?_⟩
    · intro R hR
      simp at hR
    · intro r hr
      simp at hr
    · intro x hx
      exact Or.inl hx
  | cons a reps' ih =>
    intro sk0 rs0 hreps
    obtain ⟨han, ham, hab, haS⟩ := hreps a (List.mem_cons_self a reps')
    have hclimb := climbToLevel_spec hWF m st.nodes.length a sk0 han ham hab
    obtain ⟨c1, c2, c3, c4, c5, c6⟩ := hclimb
    simp only [List.foldl_cons]
    have hstep : levelStep st m (sk0, rs0) a =
        ((climbToLevel st m st.nodes.length sk0 a).1,
          rs0 ++ [(climbToLevel st m st.nodes.length sk0 a).2]) := rfl
    rw [hstep]
    have hcS : (climbToLevel st m st.nodes.length sk0 a).2 ∈
        skin_all_nodes (climbToLevel st m st.nodes.length sk0 a).1 := by
      rcases c5 with h5 | h5
      · rw [h5]
        exact c3 a haS
      · exact h5
    have ihres := ih (climbToLevel st m st.nodes.length sk0 a).1
      (rs0 ++ [(climbToLevel st m st.nodes.length sk0 a).2])
      (fun r hr => by
        obtain ⟨h1, h2, h3, h4⟩ := hreps r (List.mem_cons_of_mem a hr)
        exact ⟨h1, h2, h3, c3 r h4⟩)
    obtain ⟨imono, rsn', ieq, ilen, iR, ichain, inew⟩ := ihres
    refine ⟨fun x hx => imono x (c3 x hx), (climbToLevel st m st.nodes.length sk0 a).2 :: rsn',
      ?_, by simp [ilen], ?_, ?_, ?_⟩
    · rw [ieq]
      simp
    · intro R hR
      rcases List.mem_cons.mp hR with rfl | hR'
      · exact ⟨c1, c2, imono _ hcS⟩
      · exact iR R hR'
    · intro r hr
      rcases List.mem_cons.mp hr with rfl | hr'
      · exact ⟨(climbToLevel st m st.nodes.length sk0 r).2, List.mem_cons_self _ _,
          chain_mono (fun y hy => imono y hy) c4⟩
      · obtain ⟨R, hR1, hR2⟩ := ichain r hr'
        exact ⟨R, List.mem_cons_of_mem _ hR1, hR2⟩
    · intro x hx
      rcases inew x hx with hx1 | ⟨hxn, R, hR1, hR2⟩
      · rcases c6 x hx1 with hx2 | ⟨hxn, hxc⟩
        · exact Or.inl hx2
        · exact Or.inr ⟨hxn, (climbToLevel st m st.nodes.length sk0 a).2,
            List.mem_cons_self _ _, chain_mono (fun y hy => imono y hy) hxc⟩
      · exact Or.inr ⟨hxn, R, List.mem_cons_of_mem _ hR1, hR2⟩

theorem foldl_min_le (st : FBXState) :
    ∀ (t : List ℕ) (acc : ℕ),
      t.foldl (fun mh r => if heightOf st r < mh then heightOf st r else mh) acc ≤ acc ∧
      ∀ r ∈ t,
        t.foldl (fun mh r => if heightOf st r < mh then heightOf st r else mh) acc ≤
          heightOf st r := by
  intro t
  induction t with
  | nil =>
    intro acc
    exact ⟨le_refl acc, fun r hr => by simp at hr⟩
  | cons b t' ih =>
    intro acc
    simp only [List.foldl_cons]
    have h1 := (ih (if heightOf st b < acc then heightOf st b else acc)).1
    have hle : (if heightOf st b < acc then heightOf st b else acc) ≤ acc := by
      split_ifs with h
      · omega
      · exact le_refl acc
    have hlb : (if heightOf st b < acc then heightOf st b else acc) ≤ heightOf st b := by
      split_ifs with h <;> omega
    refine ⟨le_trans h1 hle, ?_⟩
    intro r hr
    rcases List.mem_cons.mp hr with rfl | hr'
    · exact le_trans h1 hlb
    · exact (ih (if heightOf st b < acc then heightOf st b else acc)).2 r hr'

theorem minHeightList_le (st : FBXState) (l : List ℕ) (r : ℕ) (hr : r ∈ l) :
    minHeightList st l ≤ heightOf st r := by
  cases l with
  | nil => simp at hr
  | cons a t =>
    unfold minHeightList
    rcases List.mem_cons.mp hr with rfl | hr'
    · exact (foldl_min_le st t (heightOf st r)).1
    · exact (foldl_min_le st t (heightOf st a)).2 r hr'

/-- The parent-classification fold of one lockstep iteration
(definitionally the lambda of lockstep). -/
def parentsFold (st : FBXState) (roots : List ℕ) (sk : FBXSkin) : FBXSkin :=
  roots.foldl
    (fun s r =>
      match parentOf st r with
      | some p => addJointOrNon st s p
      | none => s)
    sk

theorem parentsFold_spec (st : FBXState) :
    ∀ (roots : List ℕ) (sk : FBXSkin),
      (∀ x, x ∈ skin_all_nodes sk → x ∈ skin_all_nodes (parentsFold st roots sk)) ∧
      (∀ r ∈ roots, ∀ p, parentOf st r = some p →
        p ∈ skin_all_nodes (parentsFold st roots sk)) ∧
      (∀ x, x ∈ skin_all_nodes (parentsFold st roots sk) →
        x ∈ skin_all_nodes sk ∨ ∃ r ∈ roots, parentOf st r = some x) := by
  intro roots
  induction roots with
  | nil =>
    intro sk
    exact ⟨fun x hx => hx, fun r hr => by simp at hr, fun x hx => Or.inl hx⟩
  | cons a roots' ih =>
    intro sk
    cases hpa : parentOf st a with
    | none =>
      have hstep : parentsFold st (a :: roots') sk = parentsFold st roots' sk := by
        unfold parentsFold
        simp only [List.foldl_cons, hpa]
      rw [hstep]
      obtain ⟨i1, i2, i3⟩ := ih sk
      refine ⟨i1, ?_, ?_⟩
      · intro r hr p hp
        rcases List.mem_cons.mp hr with rfl | hr'
        · rw [hpa] at hp
          cases hp
        · exact i2 r hr' p hp
      · intro x hx
        rcases i3 x hx with h | ⟨r, hr, hp⟩
        · exact Or.inl h
        · exact Or.inr ⟨r, List.mem_cons_of_mem a hr, hp⟩
    | some q =>
      have hstep : parentsFold st (a :: roots') sk =
          parentsFold st roots' (addJointOrNon st sk q) := by
        unfold parentsFold
        simp only [List.foldl_cons, hpa]
      rw [hstep]
      obtain ⟨i1, i2, i3⟩ := ih (addJointOrNon st sk q)
      refine ⟨?_, ?_, ?_⟩
      · intro x hx
        exact i1 x ((addJointOrNon_mem st sk q x).mpr (Or.inl hx))
      · intro r hr p hp
        rcases List.mem_cons.mp hr with rfl | hr'
        · rw [hpa] at hp
          injection hp with hp
          subst hp
          exact i1 _ ((addJointOrNon_mem st sk q _).mpr (Or.inr rfl))
        · exact i2 r hr' p hp
      · intro x hx
        rcases i3 x hx with h | ⟨r, hr, hp⟩
        · rcases (addJointOrNon_mem st sk q x).mp h with h' | rfl
          · exact Or.inl h'
          · exact Or.inr ⟨a, List.mem_cons_self a roots', hpa⟩
        · exact Or.inr ⟨r, List.mem_cons_of_mem a hr, hp⟩

theorem lockstep_spec {st : FBXState} (hWF : WFState st) :
    ∀ (fuel : ℕ) (sk : FBXSkin) (roots : List ℕ) (h : ℕ),
      (∀ r ∈ roots, r < st.nodes.length ∧ heightOf st r = h ∧ r ∈ skin_all_nodes sk) →
      roots ≠ [] →
      (∀ x, x ∈ skin_all_nodes sk → ∃ r ∈ roots, ChainIn st (skin_all_nodes sk) x r) →
      (∀ x, x ∈ skin_all_nodes sk → x < st.nodes.length) →
      h < fuel →
      allSameParent st (lockstep st fuel sk roots).2 = true ∧
      (lockstep st fuel sk roots).2 ≠ [] ∧
      (∃ h', ∀ r ∈ (lockstep st fuel sk roots).2,
        r < st.nodes.length ∧ heightOf st r = h' ∧
          r ∈ skin_all_nodes (lockstep st fuel sk roots).1) ∧
      (∀ x, x ∈ skin_all_nodes sk → x ∈ skin_all_nodes (lockstep st fuel sk roots).1) ∧
      (∀ x, x ∈ skin_all_nodes (lockstep st fuel sk roots).1 →
        ∃ r ∈ (lockstep st fuel sk roots).2,
          ChainIn st (skin_all_nodes (lockstep st fuel sk roots).1) x r) ∧
      (∀ x, x ∈ skin_all_nodes (lockstep st fuel sk roots).1 → x < st.nodes.length) := by
  intro fuel
  induction fuel with
  | zero => intro sk roots h _ _ _ _ hf; omega
  | succ f ih =>
    intro sk roots h hroots hne hconn hrange hf
    by_cases hsp : allSameParent st roots = true
    · simp only [lockstep, if_pos hsp]
      exact ⟨hsp, hne, ⟨h, fun r hr => hroots r hr⟩, fun x hx => hx, hconn, hrange⟩
    · have hh0 : 0 < h := by
        rcases Nat.eq_zero_or_pos h with rfl | hpos
        · exfalso
          apply hsp
          cases roots with
          | nil => exact absurd rfl hne
          | cons hd tl =>
            unfold allSameParent
            rw [List.all_eq_true]
            intro r hr
            rw [decide_eq_true_eq]
            have hrn : r < st.nodes.length := (hroots r hr).1
            have hrh : heightOf st r = 0 := (hroots r hr).2.1
            have hpr : parentOf st r = none := by
              cases hp : parentOf st r with
              | none => rfl
              | some p =>
                have := (parent_height hWF hrn hp).2
                omega
            have hhd : parentOf st hd = none := by
              have h1 : hd ∈ hd :: tl := List.mem_cons_self hd tl
              have h2 : heightOf st hd = 0 := (hroots hd h1).2.1
              have h3 : hd < st.nodes.length := (hroots hd h1).1
              cases hp : parentOf st hd with
              | none => rfl
              | some p =>
                have := (parent_height hWF h3 hp).2
                omega
            simp only [List.headD_cons]
            rw [hpr, hhd]
        · exact hpos
      have hpar : ∀ r ∈ roots, ∃ p, parentOf st r = some p := fun r hr =>
        height_pos_parent hWF (hroots r hr).1 (by rw [(hroots r hr).2.1]; exact hh0)
      have hgoal_eq : lockstep st (f + 1) sk roots =
          lockstep st f (parentsFold st roots sk)
            (roots.map (fun r => (parentOf st r).getD r)) := by
        simp only [lockstep, if_neg hsp]
        rfl
      rw [hgoal_eq]
      have hPF := parentsFold_spec st roots sk
      obtain ⟨pf1, pf2, pf3⟩ := hPF
      have hroots1 : ∀ r' ∈ roots.map (fun r => (parentOf st r).getD r),
          r' < st.nodes.length ∧ heightOf st r' = h - 1 ∧
          r' ∈ skin_all_nodes (parentsFold st roots sk) := by
        intro r' hr'
        obtain ⟨r, hr, hrr'⟩ := List.mem_map.mp hr'
        obtain ⟨p, hp⟩ := hpar r hr
        rw [hp] at hrr'
        simp only [Option.getD_some] at hrr'
        subst hrr'
        have hph := parent_height hWF (hroots r hr).1 hp
        refine ⟨hph.1, ?_, pf2 r hr p hp⟩
        have := (hroots r hr).2.1
        omega
      have hne1 : roots.map (fun r => (parentOf st r).getD r) ≠ [] := by
        intro hcon
        exact hne (List.map_eq_nil.mp hcon)
      have hconn1 : ∀ x, x ∈ skin_all_nodes (parentsFold st roots sk) →
          ∃ r' ∈ roots.map (fun r => (parentOf st r).getD r),
            ChainIn st (skin_all_nodes (parentsFold st roots sk)) x r' := by
        intro x hx
        rcases pf3 x hx with hxs | ⟨r, hr, hp⟩
        · obtain ⟨r, hr, hchain⟩ := hconn x hxs
          obtain ⟨p, hp⟩ := hpar r hr
          refine ⟨p, List.mem_map.mpr ⟨r, hr, by simp [hp]⟩, ?_⟩
          have hchain' : ChainIn st (skin_all_nodes (parentsFold st roots sk)) x r :=
            chain_mono (fun a ha => pf1 a ha) hchain
          exact chain_trans hchain' (ChainIn.step r p p hp (pf2 r hr p hp) (ChainIn.refl p))
        · exact ⟨x, List.mem_map.mpr ⟨r, hr, by simp [hp]⟩, ChainIn.refl x⟩
      have hrange1 : ∀ x, x ∈ skin_all_nodes (parentsFold st roots sk) →
          x < st.nodes.length := by
        intro x hx
        rcases pf3 x hx with hxs | ⟨r, hr, hp⟩
        · exact hrange x hxs
        · exact (parent_height hWF (hroots r hr).1 hp).1
      have hres := ih (parentsFold st roots sk)
        (roots.map (fun r => (parentOf st r).getD r)) (h - 1)
        hroots1 hne1 hconn1 hrange1 (by omega)
      obtain ⟨l1, l2, l3, l4, l5, l6⟩ := hres
      exact ⟨l1, l2, l3, fun x hx => l4 x (pf1 x hx), l5, l6⟩

theorem capture_spec {st : FBXState} (hWF : WFState st) (sk : FBXSkin)
    (hJr : ∀ j ∈ sk.joints, j < st.nodes.length)
    (hnon : sk.non_joints = [])
    (hmulti : 2 ≤ ((sk.joints.map (setTop st sk.joints)).dedup).length) :
    (∀ j ∈ sk.joints,
      j ∈ skin_all_nodes (_capture_nodes_for_multirooted_skin st sk)) ∧
    (∀ x, x ∈ skin_all_nodes (_capture_nodes_for_multirooted_skin st sk) →
      x < st.nodes.length) ∧
    ∃ RS h', RS ≠ [] ∧ allSameParent st RS = true ∧
      (∀ r ∈ RS, r < st.nodes.length ∧ heightOf st r = h' ∧
        r ∈ skin_all_nodes (_capture_nodes_for_multirooted_skin st sk)) ∧
      (∀ x, x ∈ skin_all_nodes (_capture_nodes_for_multirooted_skin st sk) →
        ∃ r ∈ RS,
          ChainIn st (skin_all_nodes (_capture_nodes_for_multirooted_skin st sk)) x r) := by
  have hSsk : skin_all_nodes sk = sk.joints := by
    unfold skin_all_nodes
    rw [hnon, List.append_nil]
  set reps := (sk.joints.map (setTop st sk.joints)).dedup with hreps_def
  set m := minHeightList st reps with hm_def
  have hgt : ¬ (reps.length ≤ 1) := by omega
  have hcap_eq : _capture_nodes_for_multirooted_skin st sk =
      (lockstep st st.nodes.length
        (reps.foldl (levelStep st m) (sk, [])).1
        (reps.foldl (levelStep st m) (sk, [])).2).1 := by
    unfold _capture_nodes_for_multirooted_skin
    rw [← hreps_def]
    simp only [if_neg hgt]
    rw [levelRoots_eq_fold st m reps sk]
  have hrepsfacts : ∀ r ∈ reps, r ∈ sk.joints ∧ setTop st sk.joints r = r ∧
      NodeTop st sk.joints r ∧ r < st.nodes.length := by
    intro r hr
    rw [hreps_def] at hr
    exact owners_spec hWF hJr hr
  have hlevel := levelRoots_aux hWF m reps sk []
    (fun r hr => by
      obtain ⟨hrJ, _, _, hrn⟩ := hrepsfacts r hr
      refine ⟨hrn, minHeightList_le st reps r hr, ?_, ?_⟩
      · have := (hWF r hrn).2.1
        omega
      · rw [hSsk]
        exact hrJ)
  obtain ⟨lmono, rsn, leq, llen, lR, lchain, lnew⟩ := hlevel
  have leq' : (reps.foldl (levelStep st m) (sk, [])).2 = rsn := by
    rw [leq, List.nil_append]
  have hmn : m < st.nodes.length := by
    have hne2 : reps ≠ [] := by
      intro hcon
      rw [hcon] at hmulti
      simp at hmulti
    obtain ⟨a, ha⟩ := List.exists_mem_of_ne_nil reps hne2
    have h1 := minHeightList_le st reps a ha
    have h2 := (hWF a (hrepsfacts a ha).2.2.2).2.1
    omega
  have hlock := lockstep_spec hWF st.nodes.length
    (reps.foldl (levelStep st m) (sk, [])).1
    (reps.foldl (levelStep st m) (sk, [])).2 m
    (by
      intro r hr
      rw [leq'] at hr
      exact lR r hr)
    (by
      rw [leq']
      intro hcon
      rw [hcon] at llen
      simp at llen
      omega)
    (by
      intro x hx
      rcases lnew x hx with hxs | ⟨hxn, R, hR1, hR2⟩
      · rw [hSsk] at hxs
        have ho : setTop st sk.joints x ∈ reps := by
          rw [hreps_def]
          exact List.mem_dedup.mpr (List.mem_map.mpr ⟨x, hxs, rfl⟩)
        have hchx : ChainIn st sk.joints x (setTop st sk.joints x) :=
          setTopF_chain st sk.joints st.nodes.length x
        have hchx' : ChainIn st
            (skin_all_nodes (reps.foldl (levelStep st m) (sk, [])).1) x
            (setTop st sk.joints x) :=
          chain_mono (fun a ha => lmono a (by rw [hSsk]; exact ha)) hchx
        obtain ⟨R, hR1, hR2⟩ := lchain (setTop st sk.joints x) ho
        refine ⟨R, by rw [leq']; exact hR1, chain_trans hchx' hR2⟩
      · exact ⟨R, by rw [leq']; exact hR1, hR2⟩)
    (by
      intro x hx
      rcases lnew x hx with hxs | ⟨hxn, _⟩
      · rw [hSsk] at hxs
        exact hJr x hxs
      · exact hxn)
    hmn
  obtain ⟨k1, k2, k3, k4, k5, k6⟩ := hlock
  rw [hcap_eq]
  refine ⟨?_, k6, ?_⟩
  · intro j hj
    exact k4 j (lmono j (by rw [hSsk]; exact hj))
  · obtain ⟨h', hk3⟩ := k3
    exact ⟨_, h', k2, k1, hk3, k5⟩

theorem capture_flag (st : FBXState) (fuel : ℕ) (sk : FBXSkin) (i : ℕ)
    (h : (_capture_nodes_in_skin st fuel sk i).2 = true) :
    i ∈ (_capture_nodes_in_skin st fuel sk i).1.joints := by
  cases fuel with
  | zero => simp [_capture_nodes_in_skin] at h
  | succ f =>
    simp only [_capture_nodes_in_skin] at h ⊢
    rw [decide_eq_true_eq] at h
    exact vfind_pos_mem h

theorem capture_in_skin_set {st : FBXState} (hWF : WFState st) (S0 : List ℕ) (m' : ℕ)
    (htop : ∀ t, t ∈ S0 → NodeTop st S0 t → heightOf st t ≤ m') :
    ∀ (fuel i : ℕ) (sk : FBXSkin),
      i < st.nodes.length → m' ≤ heightOf st i →
      (∀ x, x ∈ skin_all_nodes sk ↔ x ∈ S0) →
      (∀ x, x ∈ skin_all_nodes (_capture_nodes_in_skin st fuel sk i).1 ↔ x ∈ S0) := by
  intro fuel
  induction fuel with
  | zero =>
    intro i sk _ _ hS
    simpa [_capture_nodes_in_skin] using hS
  | succ f ih =>
    intro i sk hi hm hS
    have hfold : ∀ (cs : List ℕ) (acc : FBXSkin × Bool),
        (∀ c ∈ cs, c ∈ childrenOf st i) →
        (∀ x, x ∈ skin_all_nodes acc.1 ↔ x ∈ S0) →
        (acc.2 = true → i ∈ S0) →
        (∀ x, x ∈ skin_all_nodes (cs.foldl
          (fun (acc : FBXSkin × Bool) c =>
            let rc := _capture_nodes_in_skin st f acc.1 c
            (rc.1, acc.2 || rc.2)) acc).1 ↔ x ∈ S0) ∧
        ((cs.foldl (fun (acc : FBXSkin × Bool) c =>
            let rc := _capture_nodes_in_skin st f acc.1 c
            (rc.1, acc.2 || rc.2)) acc).2 = true → i ∈ S0) := by
      intro cs
      induction cs with
      | nil =>
        intro acc _ hacc hflag
        exact ⟨hacc, hflag⟩
      | cons c cs' ihc =>
        intro acc hcs hacc hflag
        have hc : c ∈ childrenOf st i := hcs c (List.mem_cons_self c cs')
        have hcn := (hWF i hi).2.2 c hc
        have hch : heightOf st c = heightOf st i + 1 :=
          (parent_height hWF hcn.1 hcn.2).2
        simp only [List.foldl_cons]
        have hrc := ih c acc.1 hcn.1 (by omega) hacc
        refine ihc ((_capture_nodes_in_skin st f acc.1 c).1,
            acc.2 || (_capture_nodes_in_skin st f acc.1 c).2)
          (fun c' hc' => hcs c' (List.mem_cons_of_mem c hc')) hrc ?_
        intro hor
        simp only [Bool.or_eq_true] at hor
        rcases hor with hA | hB
        · exact hflag hA
        · have hcj := capture_flag st f acc.1 c hB
          have hcS0 : c ∈ S0 := (hrc c).mp (joints_subset hcj)
          have hnotop : ¬ NodeTop st S0 c := by
            intro ht
            have := htop c hcS0 ht
            omega
          unfold NodeTop at hnotop
          rw [hcn.2] at hnotop
          exact not_not.mp hnotop
    have hres := hfold (childrenOf st i) (sk, false) (fun c hc => hc) hS (by simp)
    intro x
    simp only [_capture_nodes_in_skin]
    by_cases hflag : ((childrenOf st i).foldl
        (fun (acc : FBXSkin × Bool) c =>
          let rc := _capture_nodes_in_skin st f acc.1 c
          (rc.1, acc.2 || rc.2)) (sk, false)).2 = true
    · rw [if_pos hflag]
      rw [addJointOrNon_mem]
      constructor
      · intro hx
        rcases hx with hx | rfl
        · exact (hres.1 x).mp hx
        · exact hres.2 hflag
      · intro hx
        exact Or.inl ((hres.1 x).mpr hx)
    · rw [if_neg hflag]
      exact hres.1 x

/-- C1: for every well-formed node forest and every skin whose joint
set climbs to two or more disjoint in-set roots, _expand_skin (which
runs _capture_nodes_for_multirooted_skin first) succeeds, the final
root set is nonempty with all roots sharing one parent node, and
_verify_skin accepts the expanded skin. -/
theorem C1_multirooted_skin_verified (st : FBXState) (sk : FBXSkin)
    (hWF : WFState st)
    (hJr : ∀ j ∈ sk.joints, j < st.nodes.length)
    (hJne : sk.joints ≠ [])
    (hnon : sk.non_joints = [])
    (hmulti : 2 ≤ ((sk.joints.map (setTop st sk.joints)).dedup).length) :
    ∃ sk' : FBXSkin, _expand_skin st sk = some sk' ∧ sk'.roots ≠ [] ∧
      allSameParent st sk'.roots = true ∧ _verify_skin st sk' = true := by
  obtain ⟨capJ, capR, RS, h', hRSne, hRSsp, hRSprops, hRSconn⟩ :=
    capture_spec hWF sk hJr hnon hmulti
  set CAP := _capture_nodes_for_multirooted_skin st sk with hCAP
  set ALL := skin_all_nodes CAP with hALL
  set OWN := (ALL.map (setTop st ALL)).dedup with hOWN
  set OUT := isort OWN with hOUT
  have hroots1 : rootsOfNodeSets st ALL = some OUT := by
    rw [hOUT, hOWN]
    exact rootsOfNodeSets_eq hWF ALL capR
  have howners : ∀ o ∈ OWN, o ∈ RS := by
    intro o ho
    rw [hOWN] at ho
    obtain ⟨hoall, hoo, htop, hon⟩ := owners_spec hWF capR ho
    obtain ⟨r, hrRS, hchain⟩ := hRSconn o hoall
    have hro := chain_top htop hchain
    rw [← hro]
    exact hrRS
  have htopRS : ∀ t, t ∈ ALL → NodeTop st ALL t → t ∈ RS := by
    intro t htall httop
    obtain ⟨r, hrRS, hchain⟩ := hRSconn t htall
    have hrt := chain_top httop hchain
    rw [← hrt]
    exact hrRS
  have hall1_ne : ALL ≠ [] := by
    obtain ⟨j, hj⟩ := List.exists_mem_of_ne_nil sk.joints hJne
    exact List.ne_nil_of_mem (capJ j hj)
  have howners_ne : OWN ≠ [] := by
    rw [hOWN, Ne, List.dedup_eq_nil, List.map_eq_nil]
    exact hall1_ne
  have hout_ne : OUT ≠ [] := by
    intro hcon
    apply howners_ne
    have hlen := (isort_perm OWN).length_eq
    rw [hOUT] at hcon
    rw [hcon] at hlen
    simp only [List.length_nil] at hlen
    exact List.length_eq_zero.mp hlen.symm
  have hmemOUT : ∀ r, r ∈ OUT → r ∈ OWN := by
    intro r hr
    rw [hOUT] at hr
    exact (mem_isort r OWN).mp hr
  have hsame : allSameParent st OUT = true := by
    unfold allSameParent
    rw [List.all_eq_true]
    intro r hr
    rw [decide_eq_true_eq]
    have hrRS : r ∈ RS := howners r (hmemOUT r hr)
    have hhd : OUT.headD 0 ∈ OUT := by
      cases hl : OUT with
      | nil => exact absurd hl hout_ne
      | cons a t =>
        simp only [List.headD_cons]
        exact List.mem_cons_self a t
    have hhdRS : OUT.headD 0 ∈ RS := howners _ (hmemOUT _ hhd)
    unfold allSameParent at hRSsp
    rw [List.all_eq_true] at hRSsp
    have h1 := hRSsp r hrRS
    have h2 := hRSsp _ hhdRS
    rw [decide_eq_true_eq] at h1 h2
    rw [h1, h2]
  have hfoldset : ∀ (rs : List ℕ) (skA : FBXSkin),
      (∀ r ∈ rs, r ∈ RS) →
      (∀ x, x ∈ skin_all_nodes skA ↔ x ∈ ALL) →
      ∀ x, x ∈ skin_all_nodes (rs.foldl
        (fun s r => (_capture_nodes_in_skin st st.nodes.length s r).1) skA) ↔ x ∈ ALL := by
    intro rs
    induction rs with
    | nil =>
      intro skA _ hA x
      exact hA x
    | cons r rs' ihr =>
      intro skA hrs hA x
      simp only [List.foldl_cons]
      have hrRS := hrs r (List.mem_cons_self r rs')
      obtain ⟨hrn, hrh, _⟩ := hRSprops r hrRS
      have hstep := capture_in_skin_set hWF ALL h'
        (fun t ht httop => by
          have := (hRSprops t (htopRS t ht httop)).2.1
          omega)
        st.nodes.length r skA hrn (by omega) hA
      exact ihr _ (fun r' hr' => hrs r' (List.mem_cons_of_mem r hr')) hstep x
  set SK2 := OUT.foldl (fun s r => (_capture_nodes_in_skin st st.nodes.length s r).1) CAP
    with hSK2
  have hS2 : ∀ x, x ∈ skin_all_nodes SK2 ↔ x ∈ ALL := by
    rw [hSK2]
    exact hfoldset OUT CAP (fun r hr => howners r (hmemOUT r hr)) (fun x => by rw [hALL])
  have hexp : _expand_skin st sk = some { SK2 with roots := OUT } := by
    rw [hSK2]
    unfold _expand_skin
    simp only [← hCAP, ← hALL, hroots1]
  have hr2 : ∀ x ∈ skin_all_nodes SK2, x < st.nodes.length :=
    fun x hx => capR x ((hS2 x).mp hx)
  have hroots2 := rootsOfNodeSets_eq hWF (skin_all_nodes SK2) hr2
  have hsetTop2 : ∀ x, setTop st (skin_all_nodes SK2) x = setTop st ALL x :=
    fun x => setTop_congr hS2 x
  have hmemown : ∀ o, o ∈ ((skin_all_nodes SK2).map (setTop st (skin_all_nodes SK2))).dedup ↔
      o ∈ OWN := by
    intro o
    rw [List.mem_dedup, List.mem_map, hOWN, List.mem_dedup, List.mem_map]
    constructor
    · rintro ⟨x, hx, rfl⟩
      exact ⟨x, (hS2 x).mp hx, (hsetTop2 x).symm⟩
    · rintro ⟨x, hx, rfl⟩
      exact ⟨x, (hS2 x).mpr hx, hsetTop2 x⟩
  have hperm : List.Perm (((skin_all_nodes SK2).map (setTop st (skin_all_nodes SK2))).dedup)
      OWN := by
    refine (List.perm_ext_iff_of_nodup (List.nodup_dedup _) ?_).mpr hmemown
    rw [hOWN]
    exact List.nodup_dedup _
  have hisort2 : isort (((skin_all_nodes SK2).map (setTop st (skin_all_nodes SK2))).dedup) =
      OUT := by
    rw [hOUT]
    exact isort_eq_of_perm hperm
  have hSfinal : skin_all_nodes { SK2 with roots := OUT } = skin_all_nodes SK2 := rfl
  have hver : _verify_skin st { SK2 with roots := OUT } = true := by
    unfold _verify_skin
    rw [hSfinal, hroots2, hisort2]
    have hlen0 : ¬ (OUT.length = 0) := fun hc => hout_ne (List.length_eq_zero.mp hc)
    show (if OUT.length = 0 then false
      else if ¬ (OUT = OUT) then false
      else if OUT.length = 1 then true
      else allSameParent st OUT) = true
    rw [if_neg hlen0]
    rw [if_neg (not_not_intro rfl)]
    by_cases hl1 : OUT.length = 1
    · rw [if_pos hl1]
    · rw [if_neg hl1]
      exact hsame
  exact ⟨{ SK2 with roots := OUT }, hexp, hout_ne, hsame, hver⟩

/-- C1 witness document: a root node with two joint children, giving
two disjoint roots that share the root as parent. -/
def stW : FBXState :=
  { nodes :=
      [ { parent := none, children := [1, 2], joint := false, height := 0 },
        { parent := some 0, children := [], joint := true, height := 1 },
        { parent := some 0, children := [], joint := true, height := 1 } ],
    buffers := [], buffer_views := [], accessors := [] }

/-- C1 witness skin: the two sibling joints. -/
def skW : FBXSkin := { joints := [1, 2], non_joints := [], roots := [] }

theorem C1_multirooted_skin_verified_witness :
    ∃ sk' : FBXSkin, _expand_skin stW skW = some sk' ∧ sk'.roots ≠ [] ∧
      allSameParent stW sk'.roots = true ∧ _verify_skin stW sk' = true :=
  C1_multirooted_skin_verified stW skW (by decide) (by decide) (by decide) rfl (by decide)
